import Mathlib

/-!
Shallow embedding of the move-evaluation engine of a 3x3 tic-tac-toe game
(source: `src/App.tsx`): the outcome evaluator `checkWinner`, the legal-move
enumerator `getAvailableMoves`, the alpha-beta search `minimax`, the
difficulty-weighted move selector `getBestMove`, and the game-state update
`makeMove`.

The source mutates the board in place during search and undoes each
placement; the embedding threads the board state explicitly, so each
search function returns the value together with the board as it stands
when the call returns.  JavaScript's `undefined` (from an out-of-bounds
array read) is modelled by `Option`.  JavaScript number infinities, used
as initial alpha/beta bounds and loop accumulators, are modelled by an
extended-integer type `EInt`.  `Math.random()` is modelled by an oracle
stream of rationals, consumed in call order.
-/

namespace TTT

/-- The two non-empty marks (source: `'X' | 'O'` of `type Player`). -/
inductive XO where
  | X : XO
  | O : XO
deriving DecidableEq, Repr

/-- A cell holds a mark or `null` (source cell type `Player = 'X' | 'O' | null`). -/
abbrev Cell := Option XO

/-- The board: a 9-cell row-major sequence (source: `Player[]` of length 9). -/
abbrev Board := List Cell

/-- Reading `board[i]`: out-of-bounds reads yield `undefined`, which the
source only ever uses in falsy positions, so it is identified with `null`. -/
def bget (b : Board) (i : Nat) : Cell := b.getD i none

/-- The 8 static winning lines (source: `winningCombinations`). -/
def winningCombinations : List (Nat × Nat × Nat) :=
  [(0, 1, 2), (3, 4, 5), (6, 7, 8),
   (0, 3, 6), (1, 4, 7), (2, 5, 8),
   (0, 4, 8), (2, 4, 6)]

/-- The `winner` field of the source's `checkWinner` result:
`'X' | 'O' | 'tie' | null`. -/
inductive Winner where
  | mark : XO → Winner
  | tie : Winner
  | undecided : Winner
deriving DecidableEq, Repr

/-- Result record of `checkWinner` (source: `{ winner, winningLine }`). -/
structure CWResult where
  winner : Winner
  winningLine : Option (Nat × Nat × Nat)
deriving DecidableEq, Repr

/-- The `for (const combination of winningCombinations)` loop of the source's
`checkWinner`: `if (board[a] && board[a] === board[b] && board[a] === board[c])
return {winner: board[a], winningLine: combination}`. -/
def checkWinnerAux (b : Board) : List (Nat × Nat × Nat) → Option (XO × (Nat × Nat × Nat))
  | [] => none
  | t :: rest =>
    match bget b t.1 with
    | some p =>
      if bget b t.2.1 = some p ∧ bget b t.2.2 = some p then some (p, t)
      else checkWinnerAux b rest
    | none => checkWinnerAux b rest

/-- Source `checkWinner`: first matching line wins; otherwise `'tie'` iff
`board.every(cell => cell !== null)`; otherwise null (game in progress). -/
def checkWinner (b : Board) : CWResult :=
  match checkWinnerAux b winningCombinations with
  | some (p, line) => ⟨Winner.mark p, some line⟩
  | none =>
    if b.all (fun c => !c.isNone) then ⟨Winner.tie, none⟩
    else ⟨Winner.undecided, none⟩

/-- Helper capturing `board.map((cell, index) => ...)` index bookkeeping:
the indices `k, k+1, ...` of the `null` cells of `b`, in order. -/
def availAux : Board → Nat → List Nat
  | [], _ => []
  | none :: t, k => k :: availAux t (k + 1)
  | some _ :: t, k => availAux t (k + 1)

/-- Source `getAvailableMoves`: indices of the empty cells, ascending
(`board.map((cell, index) => cell === null ? index : -1).filter(i => i !== -1)`). -/
def getAvailableMoves (b : Board) : List Nat := availAux b 0

/-- JavaScript numbers as used by the search: integers plus the two
infinities used for initial bounds and accumulators. -/
inductive EInt where
  | negInf : EInt
  | fin : Int → EInt
  | posInf : EInt
deriving DecidableEq, Repr

/-- `a <= b` on `EInt`. -/
def EInt.ble : EInt → EInt → Bool
  | .negInf, _ => true
  | _, .posInf => true
  | .fin a, .fin b => a ≤ b
  | .posInf, .fin _ => false
  | .posInf, .negInf => false
  | .fin _, .negInf => false

/-- `a < b` on `EInt` (total order, so `a < b ↔ ¬ b <= a`). -/
def EInt.blt (a b : EInt) : Bool := !(EInt.ble b a)

/-- `Math.max` on `EInt`. -/
def EInt.emax (a b : EInt) : EInt := if EInt.ble a b then b else a

/-- `Math.min` on `EInt`. -/
def EInt.emin (a b : EInt) : EInt := if EInt.ble a b then a else b

/-- The maximizing branch of the source's `minimax`: iterate the
precomputed `availableMoves`, place `'O'`, recurse, undo the placement,
fold `maxEval`/`alpha` with `Math.max`, and `break` once `beta <= alpha`.
`f` is the recursive search at the remaining fuel; the board is threaded
to model the in-place mutation. -/
def maxLoop (f : Board → Nat → Bool → EInt → EInt → EInt × Board) (depth : Nat) :
    Board → List Nat → EInt → EInt → EInt → EInt × Board
  | b, [], _, _, maxEval => (maxEval, b)
  | b, m :: rest, alpha, beta, maxEval =>
    let b1 := b.set m (some XO.O)
    match f b1 (depth + 1) false alpha beta with
    | (ev, b2) =>
      let b3 := b2.set m none
      let maxEval1 := EInt.emax maxEval ev
      let alpha1 := EInt.emax alpha ev
      if EInt.ble beta alpha1 then (maxEval1, b3)
      else maxLoop f depth b3 rest alpha1 beta maxEval1

/-- The minimizing branch of the source's `minimax` (places `'X'`,
folds `minEval`/`beta` with `Math.min`, breaks once `beta <= alpha`). -/
def minLoop (f : Board → Nat → Bool → EInt → EInt → EInt × Board) (depth : Nat) :
    Board → List Nat → EInt → EInt → EInt → EInt × Board
  | b, [], _, _, minEval => (minEval, b)
  | b, m :: rest, alpha, beta, minEval =>
    let b1 := b.set m (some XO.X)
    match f b1 (depth + 1) true alpha beta with
    | (ev, b2) =>
      let b3 := b2.set m none
      let minEval1 := EInt.emin minEval ev
      let beta1 := EInt.emin beta ev
      if EInt.ble beta1 alpha then (minEval1, b3)
      else minLoop f depth b3 rest alpha beta1 minEval1

/-- Source `minimax(board, depth, isMaximizing, alpha, beta)`, with an added
structural fuel so the recursion is primitive.  The source recursion
terminates because every recursive call has one fewer empty cell; any
`fuel ≥` the number of empty cells makes the fuel-out branch unreachable
(`minimaxF_fuel_irrel` below), and the wrapper `minimax` uses fuel 9, enough
for every 9-cell board.  The returned board models the state of the
caller's array when the call returns. -/
def minimaxF : Nat → Board → Nat → Bool → EInt → EInt → EInt × Board
  | fuel, b, depth, isMaximizing, alpha, beta =>
    match (checkWinner b).winner with
    | Winner.mark XO.O => (EInt.fin (10 - (depth : Int)), b)
    | Winner.mark XO.X => (EInt.fin ((depth : Int) - 10), b)
    | Winner.tie => (EInt.fin 0, b)
    | Winner.undecided =>
      match fuel with
      | 0 => (EInt.fin 0, b)
      | fuel' + 1 =>
        if isMaximizing then
          maxLoop (minimaxF fuel') depth b (getAvailableMoves b) alpha beta EInt.negInf
        else
          minLoop (minimaxF fuel') depth b (getAvailableMoves b) alpha beta EInt.posInf

/-- Source `minimax` as called by the program: fuel 9 covers every 9-cell
board. -/
def minimax (b : Board) (depth : Nat) (isMaximizing : Bool) (alpha beta : EInt) :
    EInt × Board :=
  minimaxF 9 b depth isMaximizing alpha beta

/-- The root loop of `getBestMove` (lines 132-141): for each available move,
place `'O'`, call `minimax(board, 0, false)` with the default infinite
bounds, undo, and replace the incumbent only on a strict `>` comparison. -/
def bestLoop : Board → List Nat → Option Nat → EInt → Option Nat × Board
  | b, [], bestMove, _ => (bestMove, b)
  | b, m :: rest, bestMove, bestValue =>
    let b1 := b.set m (some XO.O)
    match minimax b1 0 false EInt.negInf EInt.posInf with
    | (moveValue, b2) =>
      let b3 := b2.set m none
      if EInt.blt bestValue moveValue then bestLoop b3 rest (some m) moveValue
      else bestLoop b3 rest bestMove bestValue

/-- The optimal-play path of `getBestMove` (reached always at Hard, and as
fallback at Easy/Medium): `bestMove` starts at `availableMoves[0]` (which is
`undefined`, i.e. `none`, when no move is available), `bestValue` at
`-Infinity`. -/
def bestMoveSearch (b : Board) : Option Nat × Board :=
  let availableMoves := getAvailableMoves b
  bestLoop b availableMoves availableMoves.head? EInt.negInf

/-- The spec-level plain minimax value (no pruning): the same terminal
scoring as `minimax`, with the maximizing/minimizing fold taken over every
available move.  Used to state that alpha-beta pruning computes the exact
game value at the full window. -/
def foldMax (g : Nat → EInt) : List Nat → EInt → EInt
  | [], acc => acc
  | m :: rest, acc => foldMax g rest (EInt.emax acc (g m))

/-- Minimizing fold over candidate moves, for the spec-level minimax. -/
def foldMin (g : Nat → EInt) : List Nat → EInt → EInt
  | [], acc => acc
  | m :: rest, acc => foldMin g rest (EInt.emin acc (g m))

/-- Plain (unpruned) minimax value of a board, with the same fuel
convention as `minimaxF`. -/
def mvalF : Nat → Board → Nat → Bool → EInt
  | fuel, b, depth, isMaximizing =>
    match (checkWinner b).winner with
    | Winner.mark XO.O => EInt.fin (10 - (depth : Int))
    | Winner.mark XO.X => EInt.fin ((depth : Int) - 10)
    | Winner.tie => EInt.fin 0
    | Winner.undecided =>
      match fuel with
      | 0 => EInt.fin 0
      | fuel' + 1 =>
        if isMaximizing then
          foldMax (fun m => mvalF fuel' (b.set m (some XO.O)) (depth + 1) false)
            (getAvailableMoves b) EInt.negInf
        else
          foldMin (fun m => mvalF fuel' (b.set m (some XO.X)) (depth + 1) true)
            (getAvailableMoves b) EInt.posInf

/-- Source `Difficulty`. -/
inductive Difficulty where
  | easy : Difficulty
  | medium : Difficulty
  | hard : Difficulty
deriving DecidableEq, Repr

/-- Source `getBestMove(board, difficulty)`.  `rand n` is the value of the
`n`-th `Math.random()` call made during this invocation (each in `[0,1)`).
At Easy the search is bypassed with probability 0.7 in favour of a uniform
random available move, at Medium with probability 0.3, and Hard always
falls through to the optimal search. -/
def getBestMove (b : Board) (difficulty : Difficulty) (rand : Nat → ℚ) : Option Nat :=
  let availableMoves := getAvailableMoves b
  if difficulty = Difficulty.easy then
    if rand 0 < 7/10 then
      availableMoves.get? (Int.toNat ⌊rand 1 * (availableMoves.length : ℚ)⌋)
    else (bestMoveSearch b).1
  else if difficulty = Difficulty.medium then
    if rand 0 < 3/10 then
      availableMoves.get? (Int.toNat ⌊rand 1 * (availableMoves.length : ℚ)⌋)
    else (bestMoveSearch b).1
  else (bestMoveSearch b).1

/-- Source `GameMode`. -/
inductive GameMode where
  | pvp : GameMode
  | pvc : GameMode
deriving DecidableEq, Repr

/-- Source score record. -/
structure Scores where
  X : Nat
  O : Nat
  ties : Nat
deriving DecidableEq, Repr

/-- Source `GameState` (the parts `makeMove` reads and writes). -/
structure GameState where
  board : Board
  currentPlayer : XO
  winner : Winner
  winningLine : Option (Nat × Nat × Nat)
  gameMode : GameMode
  difficulty : Difficulty
  scores : Scores
deriving DecidableEq, Repr

/-- The score bump on game end (source:
`[winner === 'tie' ? 'ties' : winner]: prev.scores[...] + 1`). -/
def bumpScores (s : Scores) : Winner → Scores
  | Winner.mark XO.X => { s with X := s.X + 1 }
  | Winner.mark XO.O => { s with O := s.O + 1 }
  | Winner.tie => { s with ties := s.ties + 1 }
  | Winner.undecided => s

/-- Source `makeMove(index)`: a no-op when the target cell is occupied or the
game is over (`if (gameState.board[index] || gameState.winner) return`);
otherwise place the current player's mark, re-evaluate the outcome, flip the
player, and bump the scores when the game just ended. -/
def makeMove (gs : GameState) (index : Nat) : GameState :=
  if (bget gs.board index).isSome ∨ gs.winner ≠ Winner.undecided then gs
  else
    let newBoard := gs.board.set index (some gs.currentPlayer)
    let r := checkWinner newBoard
    { gs with
      board := newBoard
      currentPlayer := if gs.currentPlayer = XO.X then XO.O else XO.X
      winner := r.winner
      winningLine := r.winningLine
      scores := if r.winner ≠ Winner.undecided then bumpScores gs.scores r.winner
                else gs.scores }

/-- The number of empty cells of a board. -/
def countNone (b : Board) : Nat := b.countP (fun c => c.isNone)

/-- The empty 9-cell board. -/
def emptyBoard : Board := List.replicate 9 (none : Cell)

/-- Numeric code of a mark: `X ↦ 1`, `O ↦ 2`. -/
def xoCode : XO → Nat
  | XO.X => 1
  | XO.O => 2

/-- Numeric code of a cell: `Empty ↦ 0`. -/
def cellCode : Cell → Nat
  | none => 0
  | some p => xoCode p

/-- Base-3 encoding of a board, least-significant digit = cell 0. -/
def encB : Board → Nat
  | [] => 0
  | c :: t => cellCode c + 3 * encB t

/-- Digit `i` of an encoded board. -/
def bgetN (n i : Nat) : Nat := n / 3 ^ i % 3

/-- Overwrite digit `i` of an encoded board with `v`. -/
def setN (n i v : Nat) : Nat := n - bgetN n i * 3 ^ i + v * 3 ^ i

/-- Mirror of `checkWinnerAux` on encoded boards, returning the winning
mark's code (`0` when no line of the list is filled). -/
def cwAuxN (n : Nat) : List (Nat × Nat × Nat) → Nat
  | [] => 0
  | t :: rest =>
    let d := bgetN n t.1
    cond (d != 0 && bgetN n t.2.1 == d && bgetN n t.2.2 == d) d (cwAuxN n rest)

/-- Mirror of `availAux` on encoded boards (`cnt` cells starting at
index `k`). -/
def availAuxN (n : Nat) : Nat → Nat → List Nat
  | 0, _ => []
  | cnt + 1, k =>
    cond (bgetN n k == 0) (k :: availAuxN n cnt (k + 1)) (availAuxN n cnt (k + 1))

/-- Mirror of `getAvailableMoves` on encoded 9-cell boards. -/
def availN (n : Nat) : List Nat := availAuxN n 9 0

/-- A fixed exploration order for the safety certificate below (centre and
corners first).  It lists exactly the cells `0..8`, so filtering it by
emptiness yields the same set of moves as `getAvailableMoves`, merely in an
order that keeps the certificate tree small. -/
def moveOrder : List Nat := [4, 0, 8, 2, 6, 5, 3, 1, 7]

/-- The empty cells of an encoded board, in certificate order. -/
def availOrdN (n : Nat) : List Nat := moveOrder.filter (fun i => bgetN n i == 0)

/-- Game-theoretic safety of the automated opponent, on encoded boards:
`gSafeN fuel n xTurn` holds when, with `X` to move iff `xTurn`, player `O`
can force the game from board `n` to end in an `O` win or a tie against
every `X` strategy.  Defined with short-circuit quantifier sweeps so that
it evaluates quickly; its agreement with the sign of the minimax value is
`gSafeN_iff_mval` below. -/
def gSafeN : Nat → Nat → Bool → Bool
  | fuel, n, xTurn =>
    let w := cwAuxN n winningCombinations
    cond (w == 1) false
    (cond (w == 2) true
    (let a := availOrdN n
     cond a.isEmpty true
     (match fuel with
      | 0 => true
      | fuel' + 1 =>
        cond xTurn
          (a.all (fun m => gSafeN fuel' (setN n m 1) false))
          (a.any (fun m => gSafeN fuel' (setN n m 2) true)))))

/-- The reachable states of the application's human-versus-computer game at
Hard difficulty: `X` (the human) starts on the empty board and may play any
available cell; while the game is not over, the automated opponent answers
with the move returned by `getBestMove` at Hard difficulty.  `Reach b t`
holds when board `b` with `X` to move iff `t` occurs in some such play. -/
inductive Reach : Board → Bool → Prop where
  | init : Reach emptyBoard true
  | xmove {b : Board} {m : Nat} :
      Reach b true →
      (checkWinner b).winner = Winner.undecided →
      m ∈ getAvailableMoves b →
      Reach (b.set m (some XO.X)) false
  | omove {b : Board} {m : Nat} (rand : Nat → ℚ) :
      Reach b false →
      (checkWinner b).winner = Winner.undecided →
      getBestMove b Difficulty.hard rand = some m →
      Reach (b.set m (some XO.O)) true

/-- The mark filling line `t` of board `b`, when `t`'s three cells hold the
same non-empty mark (claim-side notion, for the `checkWinner`
characterization). -/
def lineMark (b : Board) (t : Nat × Nat × Nat) : Option XO :=
  match bget b t.1, bget b t.2.1, bget b t.2.2 with
  | some p, some q, some r => if q = p ∧ r = p then some p else none
  | _, _, _ => none

/-- The outcome evaluator as described by the specification: the first
triple of the 8-line table whose three cells hold the same non-empty mark
wins; otherwise `Tie` when every cell is non-empty, else in progress. -/
def checkWinnerSpec (b : Board) : CWResult :=
  match winningCombinations.findSome? (fun t => (lineMark b t).map (fun p => (p, t))) with
  | some (p, t) => ⟨Winner.mark p, some t⟩
  | none =>
    if b.all (fun c => c.isSome) then ⟨Winner.tie, none⟩
    else ⟨Winner.undecided, none⟩

/-! ### Order lemmas for `EInt` -/

theorem eble_refl (a : EInt) : EInt.ble a a = true := by
  cases a <;> simp [EInt.ble]

theorem eble_trans {a b c : EInt} (h1 : EInt.ble a b = true) (h2 : EInt.ble b c = true) :
    EInt.ble a c = true := by
  cases a <;> cases b <;> cases c <;> simp_all [EInt.ble] <;> omega

theorem eble_total (a b : EInt) : EInt.ble a b = true ∨ EInt.ble b a = true := by
  cases a <;> cases b <;> simp [EInt.ble] <;> omega

theorem eble_antisymm {a b : EInt} (h1 : EInt.ble a b = true) (h2 : EInt.ble b a = true) :
    a = b := by
  cases a <;> cases b <;> simp_all [EInt.ble] <;> omega

theorem eblt_iff {a b : EInt} : EInt.blt a b = true ↔ ¬ EInt.ble b a = true := by
  simp [EInt.blt]

theorem fin_eble_fin {x y : Int} : EInt.ble (EInt.fin x) (EInt.fin y) = true ↔ x ≤ y := by
  simp [EInt.ble]

theorem eble_negInf (a : EInt) : EInt.ble EInt.negInf a = true := by
  cases a <;> rfl

theorem eble_posInf (a : EInt) : EInt.ble a EInt.posInf = true := by
  cases a <;> rfl

theorem eble_emax_left (a b : EInt) : EInt.ble a (EInt.emax a b) = true := by
  unfold EInt.emax
  rcases h : EInt.ble a b with _ | _ <;> simp [h, eble_refl]

theorem eble_emax_right (a b : EInt) : EInt.ble b (EInt.emax a b) = true := by
  unfold EInt.emax
  rcases h : EInt.ble a b with _ | _ <;> simp [h, eble_refl]
  rcases eble_total a b with h' | h'
  · simp_all
  · exact h'

theorem emax_eble {a b c : EInt} :
    EInt.ble (EInt.emax a b) c = true ↔ (EInt.ble a c = true ∧ EInt.ble b c = true) := by
  constructor
  · intro h
    exact ⟨eble_trans (eble_emax_left a b) h, eble_trans (eble_emax_right a b) h⟩
  · rintro ⟨h1, h2⟩
    unfold EInt.emax
    rcases h : EInt.ble a b with _ | _ <;> simp [h1, h2]

theorem eble_emax {a b c : EInt} :
    EInt.ble c (EInt.emax a b) = true ↔ (EInt.ble c a = true ∨ EInt.ble c b = true) := by
  constructor
  · intro h
    unfold EInt.emax at h
    rcases h' : EInt.ble a b with _ | _ <;> simp [h'] at h <;> simp [h]
  · rintro (h | h)
    · exact eble_trans h (eble_emax_left a b)
    · exact eble_trans h (eble_emax_right a b)

theorem eble_emin_left (a b : EInt) : EInt.ble (EInt.emin a b) a = true := by
  unfold EInt.emin
  rcases h : EInt.ble a b with _ | _ <;> simp [h, eble_refl]
  rcases eble_total a b with h' | h'
  · simp_all
  · exact h'

theorem eble_emin_right (a b : EInt) : EInt.ble (EInt.emin a b) b = true := by
  unfold EInt.emin
  rcases h : EInt.ble a b with _ | _ <;> simp [h, eble_refl]

theorem eble_emin {a b c : EInt} :
    EInt.ble c (EInt.emin a b) = true ↔ (EInt.ble c a = true ∧ EInt.ble c b = true) := by
  constructor
  · intro h
    exact ⟨eble_trans h (eble_emin_left a b), eble_trans h (eble_emin_right a b)⟩
  · rintro ⟨h1, h2⟩
    unfold EInt.emin
    rcases h : EInt.ble a b with _ | _ <;> simp [h1, h2]

theorem emin_eble {a b c : EInt} :
    EInt.ble (EInt.emin a b) c = true ↔ (EInt.ble a c = true ∨ EInt.ble b c = true) := by
  constructor
  · intro h
    unfold EInt.emin at h
    rcases h' : EInt.ble a b with _ | _ <;> simp [h'] at h <;> simp [h]
  · rintro (h | h)
    · exact eble_trans (eble_emin_left a b) h
    · exact eble_trans (eble_emin_right a b) h

/-! ### Board access and available-move lemmas -/

theorem bget_nil (i : Nat) : bget [] i = none := by
  simp [bget]

theorem bget_cons_zero (c : Cell) (t : Board) : bget (c :: t) 0 = c := rfl

theorem bget_cons_succ (c : Cell) (t : Board) (i : Nat) :
    bget (c :: t) (i + 1) = bget t i := rfl

theorem set_bget_none {b : Board} {m : Nat} (h : bget b m = none) :
    b.set m (none : Cell) = b := by
  induction b generalizing m with
  | nil => rfl
  | cons c t ih =>
    cases m with
    | zero => rw [bget_cons_zero] at h; simp [h]
    | succ m => rw [bget_cons_succ] at h; simp [ih h]

theorem set_set_cancel {b : Board} {m : Nat} (c : Cell) (h : bget b m = none) :
    (b.set m c).set m (none : Cell) = b := by
  rw [List.set_set, set_bget_none h]

theorem mem_availAux {b : Board} {k m : Nat} :
    m ∈ availAux b k ↔ ∃ j, j < b.length ∧ bget b j = none ∧ m = k + j := by
  induction b generalizing k with
  | nil => simp [availAux]
  | cons c t ih =>
    cases c with
    | none =>
      simp only [availAux, List.mem_cons, ih]
      constructor
      · rintro (rfl | ⟨j, hj, hget, rfl⟩)
        · exact ⟨0, by simp [bget_cons_zero]⟩
        · exact ⟨j + 1, by simpa [bget_cons_succ] using hj, by simpa [bget_cons_succ] using hget,
            by omega⟩
      · rintro ⟨j, hj, hget, rfl⟩
        cases j with
        | zero => left; omega
        | succ j =>
          right
          exact ⟨j, by simpa using hj, by simpa [bget_cons_succ] using hget, by omega⟩
    | some p =>
      simp only [availAux, ih]
      constructor
      · rintro ⟨j, hj, hget, rfl⟩
        exact ⟨j + 1, by simpa using hj, by simpa [bget_cons_succ] using hget, by omega⟩
      · rintro ⟨j, hj, hget, rfl⟩
        cases j with
        | zero => rw [bget_cons_zero] at hget; exact absurd hget (by simp)
        | succ j =>
          exact ⟨j, by simpa using hj, by simpa [bget_cons_succ] using hget, by omega⟩

theorem availAux_ge {b : Board} {k m : Nat} (h : m ∈ availAux b k) : k ≤ m := by
  obtain ⟨j, _, _, rfl⟩ := mem_availAux.mp h
  omega

theorem availAux_sorted (b : Board) (k : Nat) : (availAux b k).Pairwise (· < ·) := by
  induction b generalizing k with
  | nil => simp [availAux]
  | cons c t ih =>
    cases c with
    | none =>
      refine List.Pairwise.cons (fun m hm => ?_) (ih (k + 1))
      have := availAux_ge hm
      omega
    | some p => exact ih (k + 1)

theorem mem_getAvailableMoves {b : Board} {m : Nat} :
    m ∈ getAvailableMoves b ↔ m < b.length ∧ bget b m = none := by
  unfold getAvailableMoves
  rw [mem_availAux]
  constructor
  · rintro ⟨j, hj, hget, rfl⟩
    simpa using ⟨hj, hget⟩
  · rintro ⟨hm, hget⟩
    exact ⟨m, hm, hget, by omega⟩

theorem availAux_length (b : Board) (k : Nat) :
    (availAux b k).length = countNone b := by
  induction b generalizing k with
  | nil => simp [availAux, countNone]
  | cons c t ih =>
    cases c with
    | none => simp [availAux, countNone, List.countP_cons, ih]
    | some p => simp [availAux, countNone, List.countP_cons, ih]

theorem countNone_le_length (b : Board) : countNone b ≤ b.length :=
  List.countP_le_length _

theorem countNone_set {b : Board} {m : Nat} (p : XO)
    (hm : m < b.length) (h : bget b m = none) :
    countNone (b.set m (some p)) + 1 = countNone b := by
  induction b generalizing m with
  | nil => simp at hm
  | cons c t ih =>
    cases m with
    | zero =>
      rw [bget_cons_zero] at h
      subst h
      simp [countNone, List.countP_cons]
    | succ m =>
      rw [bget_cons_succ] at h
      have := ih (by simpa using hm) h
      simp only [List.set, countNone, List.countP_cons] at *
      omega

theorem all_isNone_iff {b : Board} :
    (b.all fun c => !c.isNone) = true ↔ countNone b = 0 := by
  induction b with
  | nil => simp [countNone]
  | cons c t ih =>
    cases c <;> simp_all [countNone, List.countP_cons]

theorem getAvailableMoves_eq_nil {b : Board} :
    getAvailableMoves b = [] ↔ countNone b = 0 := by
  rw [← availAux_length b 0]
  unfold getAvailableMoves
  exact List.length_eq_zero.symm

theorem checkWinner_undecided_avail {b : Board}
    (h : (checkWinner b).winner = Winner.undecided) :
    getAvailableMoves b ≠ [] := by
  intro hnil
  unfold checkWinner at h
  rcases hW : checkWinnerAux b winningCombinations with _ | ⟨p, line⟩
  · rw [hW] at h
    have h0 := getAvailableMoves_eq_nil.mp hnil
    rw [← all_isNone_iff] at h0
    split at h
    · simp at h
    · simp_all [List.all_eq_true]
  · simp [hW] at h

/-! ### Restoration: the search returns the board as it received it -/

theorem maxLoop_snd {f : Board → Nat → Bool → EInt → EInt → EInt × Board}
    (hf : ∀ b d t α β, (f b d t α β).2 = b) (depth : Nat) :
    ∀ (moves : List Nat) (b : Board) (α β acc : EInt),
      (∀ m ∈ moves, bget b m = none) →
      (maxLoop f depth b moves α β acc).2 = b := by
  intro moves
  induction moves with
  | nil => intro b α β acc _; rfl
  | cons m rest ih =>
    intro b α β acc hmoves
    have hm : bget b m = none := hmoves m (List.mem_cons_self m rest)
    simp only [maxLoop]
    rcases hfb : f (b.set m (some XO.O)) (depth + 1) false α β with ⟨ev, b2⟩
    have hb2 : b2 = b.set m (some XO.O) := by
      have := hf (b.set m (some XO.O)) (depth + 1) false α β
      rw [hfb] at this
      exact this
    have hb3 : b2.set m (none : Cell) = b := by
      rw [hb2, set_set_cancel _ hm]
    split
    · exact hb3
    · rw [hb3]
      exact ih b _ _ _ (fun m' hm' => hmoves m' (List.mem_cons_of_mem m hm'))

theorem minLoop_snd {f : Board → Nat → Bool → EInt → EInt → EInt × Board}
    (hf : ∀ b d t α β, (f b d t α β).2 = b) (depth : Nat) :
    ∀ (moves : List Nat) (b : Board) (α β acc : EInt),
      (∀ m ∈ moves, bget b m = none) →
      (minLoop f depth b moves α β acc).2 = b := by
  intro moves
  induction moves with
  | nil => intro b α β acc _; rfl
  | cons m rest ih =>
    intro b α β acc hmoves
    have hm : bget b m = none := hmoves m (List.mem_cons_self m rest)
    simp only [minLoop]
    rcases hfb : f (b.set m (some XO.X)) (depth + 1) true α β with ⟨ev, b2⟩
    have hb2 : b2 = b.set m (some XO.X) := by
      have := hf (b.set m (some XO.X)) (depth + 1) true α β
      rw [hfb] at this
      exact this
    have hb3 : b2.set m (none : Cell) = b := by
      rw [hb2, set_set_cancel _ hm]
    split
    · exact hb3
    · rw [hb3]
      exact ih b _ _ _ (fun m' hm' => hmoves m' (List.mem_cons_of_mem m hm'))

theorem minimaxF_snd (fuel : Nat) :
    ∀ (b : Board) (depth : Nat) (isMaximizing : Bool) (α β : EInt),
      (minimaxF fuel b depth isMaximizing α β).2 = b := by
  induction fuel with
  | zero =>
    intro b depth isMaximizing α β
    simp only [minimaxF]
    split <;> rfl
  | succ fuel ih =>
    intro b depth isMaximizing α β
    simp only [minimaxF]
    have hmoves : ∀ m ∈ getAvailableMoves b, bget b m = none :=
      fun m hm => (mem_getAvailableMoves.mp hm).2
    split
    · rfl
    · rfl
    · rfl
    · split
      · exact maxLoop_snd ih depth _ b α β _ hmoves
      · exact minLoop_snd ih depth _ b α β _ hmoves

theorem bestLoop_snd :
    ∀ (moves : List Nat) (b : Board) (bm : Option Nat) (bv : EInt),
      (∀ m ∈ moves, bget b m = none) →
      (bestLoop b moves bm bv).2 = b := by
  intro moves
  induction moves with
  | nil => intro b bm bv _; rfl
  | cons m rest ih =>
    intro b bm bv hmoves
    have hm : bget b m = none := hmoves m (List.mem_cons_self m rest)
    simp only [bestLoop]
    rcases hfb : minimax (b.set m (some XO.O)) 0 false EInt.negInf EInt.posInf with ⟨ev, b2⟩
    have hb2 : b2 = b.set m (some XO.O) := by
      have := minimaxF_snd 9 (b.set m (some XO.O)) 0 false EInt.negInf EInt.posInf
      rw [show minimaxF 9 (b.set m (some XO.O)) 0 false EInt.negInf EInt.posInf =
        minimax (b.set m (some XO.O)) 0 false EInt.negInf EInt.posInf from rfl, hfb] at this
      exact this
    have hb3 : b2.set m (none : Cell) = b := by
      rw [hb2, set_set_cancel _ hm]
    split <;> rw [hb3] <;>
      exact ih b _ _ (fun m' hm' => hmoves m' (List.mem_cons_of_mem m hm'))

theorem bestMoveSearch_snd (b : Board) : (bestMoveSearch b).2 = b := by
  unfold bestMoveSearch
  exact bestLoop_snd _ b _ _ (fun m hm => (mem_getAvailableMoves.mp hm).2)

/-! ### Fuel irrelevance: the search bottoms out within `countNone` levels -/

theorem emax_cases (a b : EInt) : EInt.emax a b = a ∨ EInt.emax a b = b := by
  unfold EInt.emax
  split
  · exact Or.inr rfl
  · exact Or.inl rfl

theorem emin_cases (a b : EInt) : EInt.emin a b = a ∨ EInt.emin a b = b := by
  unfold EInt.emin
  split
  · exact Or.inl rfl
  · exact Or.inr rfl

theorem emax_negInf (x : EInt) : EInt.emax EInt.negInf x = x := by
  cases x <;> rfl

theorem emin_posInf (x : EInt) : EInt.emin EInt.posInf x = x := by
  cases x <;> rfl

theorem checkWinner_undecided_countNone {b : Board}
    (h : (checkWinner b).winner = Winner.undecided) : countNone b ≠ 0 := by
  intro h0
  exact checkWinner_undecided_avail h (getAvailableMoves_eq_nil.mpr h0)

theorem minimaxF_win_O {b : Board} (fuel depth : Nat) (t : Bool) (α β : EInt)
    (hw : (checkWinner b).winner = Winner.mark XO.O) :
    minimaxF fuel b depth t α β = (EInt.fin (10 - (depth : Int)), b) := by
  cases fuel <;> simp only [minimaxF] <;> split <;> simp_all

theorem minimaxF_win_X {b : Board} (fuel depth : Nat) (t : Bool) (α β : EInt)
    (hw : (checkWinner b).winner = Winner.mark XO.X) :
    minimaxF fuel b depth t α β = (EInt.fin ((depth : Int) - 10), b) := by
  cases fuel <;> simp only [minimaxF] <;> split <;> simp_all

theorem minimaxF_tie {b : Board} (fuel depth : Nat) (t : Bool) (α β : EInt)
    (hw : (checkWinner b).winner = Winner.tie) :
    minimaxF fuel b depth t α β = (EInt.fin 0, b) := by
  cases fuel <;> simp only [minimaxF] <;> split <;> simp_all

theorem minimaxF_undecided {b : Board} (fuel depth : Nat) (t : Bool) (α β : EInt)
    (hw : (checkWinner b).winner = Winner.undecided) :
    minimaxF (fuel + 1) b depth t α β =
      if t then maxLoop (minimaxF fuel) depth b (getAvailableMoves b) α β EInt.negInf
      else minLoop (minimaxF fuel) depth b (getAvailableMoves b) α β EInt.posInf := by
  simp only [minimaxF] <;> split <;> simp_all

theorem minimaxF_zero_undecided {b : Board} (depth : Nat) (t : Bool) (α β : EInt)
    (hw : (checkWinner b).winner = Winner.undecided) :
    minimaxF 0 b depth t α β = (EInt.fin 0, b) := by
  simp only [minimaxF] <;> split <;> simp_all

theorem maxLoop_congr {f g : Board → Nat → Bool → EInt → EInt → EInt × Board}
    (hf : ∀ b d t α β, (f b d t α β).2 = b) (depth : Nat) :
    ∀ (moves : List Nat) (b : Board) (α β acc : EInt),
      (∀ m ∈ moves, bget b m = none) →
      (∀ m ∈ moves, ∀ d t α' β',
        f (b.set m (some XO.O)) d t α' β' = g (b.set m (some XO.O)) d t α' β') →
      maxLoop f depth b moves α β acc = maxLoop g depth b moves α β acc := by
  intro moves
  induction moves with
  | nil => intro b α β acc _ _; rfl
  | cons m rest ih =>
    intro b α β acc hmoves hfg
    have hm : bget b m = none := hmoves m (List.mem_cons_self m rest)
    simp only [maxLoop]
    rw [← hfg m (List.mem_cons_self m rest)]
    rcases hfb : f (b.set m (some XO.O)) (depth + 1) false α β with ⟨ev, b2⟩
    have hb2 : b2 = b.set m (some XO.O) := by
      have := hf (b.set m (some XO.O)) (depth + 1) false α β
      rw [hfb] at this
      exact this
    have hb3 : b2.set m (none : Cell) = b := by rw [hb2, set_set_cancel _ hm]
    split
    · rfl
    · rw [hb3]
      exact ih b _ _ _ (fun m' hm' => hmoves m' (List.mem_cons_of_mem m hm'))
        (fun m' hm' => hfg m' (List.mem_cons_of_mem m hm'))

theorem minLoop_congr {f g : Board → Nat → Bool → EInt → EInt → EInt × Board}
    (hf : ∀ b d t α β, (f b d t α β).2 = b) (depth : Nat) :
    ∀ (moves : List Nat) (b : Board) (α β acc : EInt),
      (∀ m ∈ moves, bget b m = none) →
      (∀ m ∈ moves, ∀ d t α' β',
        f (b.set m (some XO.X)) d t α' β' = g (b.set m (some XO.X)) d t α' β') →
      minLoop f depth b moves α β acc = minLoop g depth b moves α β acc := by
  intro moves
  induction moves with
  | nil => intro b α β acc _ _; rfl
  | cons m rest ih =>
    intro b α β acc hmoves hfg
    have hm : bget b m = none := hmoves m (List.mem_cons_self m rest)
    simp only [minLoop]
    rw [← hfg m (List.mem_cons_self m rest)]
    rcases hfb : f (b.set m (some XO.X)) (depth + 1) true α β with ⟨ev, b2⟩
    have hb2 : b2 = b.set m (some XO.X) := by
      have := hf (b.set m (some XO.X)) (depth + 1) true α β
      rw [hfb] at this
      exact this
    have hb3 : b2.set m (none : Cell) = b := by rw [hb2, set_set_cancel _ hm]
    split
    · rfl
    · rw [hb3]
      exact ih b _ _ _ (fun m' hm' => hmoves m' (List.mem_cons_of_mem m hm'))
        (fun m' hm' => hfg m' (List.mem_cons_of_mem m hm'))

theorem minimaxF_fuel_irrel :
    ∀ (n : Nat) (b : Board) (f1 f2 depth : Nat) (t : Bool) (α β : EInt),
      countNone b = n → n ≤ f1 → n ≤ f2 →
      minimaxF f1 b depth t α β = minimaxF f2 b depth t α β := by
  intro n
  induction n with
  | zero =>
    intro b f1 f2 depth t α β hn _ _
    rcases hw : (checkWinner b).winner with p | _ | _
    · cases p
      · rw [minimaxF_win_X f1 depth t α β hw, minimaxF_win_X f2 depth t α β hw]
      · rw [minimaxF_win_O f1 depth t α β hw, minimaxF_win_O f2 depth t α β hw]
    · rw [minimaxF_tie f1 depth t α β hw, minimaxF_tie f2 depth t α β hw]
    · exact absurd hn (checkWinner_undecided_countNone hw)
  | succ n ih =>
    intro b f1 f2 depth t α β hn h1 h2
    rcases hw : (checkWinner b).winner with p | _ | _
    · cases p
      · rw [minimaxF_win_X f1 depth t α β hw, minimaxF_win_X f2 depth t α β hw]
      · rw [minimaxF_win_O f1 depth t α β hw, minimaxF_win_O f2 depth t α β hw]
    · rw [minimaxF_tie f1 depth t α β hw, minimaxF_tie f2 depth t α β hw]
    · cases f1 with
      | zero => omega
      | succ f1 =>
        cases f2 with
        | zero => omega
        | succ f2 =>
          rw [minimaxF_undecided f1 depth t α β hw, minimaxF_undecided f2 depth t α β hw]
          have hmoves : ∀ m ∈ getAvailableMoves b, bget b m = none :=
            fun m hm => (mem_getAvailableMoves.mp hm).2
          have hcong : ∀ (p : XO), ∀ m ∈ getAvailableMoves b, ∀ d t' α' β',
              minimaxF f1 (b.set m (some p)) d t' α' β' =
              minimaxF f2 (b.set m (some p)) d t' α' β' := by
            intro p m hm d t' α' β'
            obtain ⟨hmlen, hmget⟩ := mem_getAvailableMoves.mp hm
            have hcn : countNone (b.set m (some p)) + 1 = countNone b :=
              countNone_set p hmlen hmget
            exact ih _ f1 f2 d t' α' β' (by omega) (by omega) (by omega)
          cases t
          · rw [if_neg (by simp), if_neg (by simp)]
            exact minLoop_congr (fun b' d t' α' β' => minimaxF_snd f1 b' d t' α' β')
              depth _ b α β _ hmoves (hcong XO.X)
          · rw [if_pos rfl, if_pos rfl]
            exact maxLoop_congr (fun b' d t' α' β' => minimaxF_snd f1 b' d t' α' β')
              depth _ b α β _ hmoves (hcong XO.O)

/-! ### Finiteness and range of search values -/

theorem maxLoop_fin (C : Int → Prop) {f : Board → Nat → Bool → EInt → EInt → EInt × Board}
    (depth : Nat) :
    ∀ (moves : List Nat) (b : Board) (α β acc : EInt),
      (∀ b' d t α' β', (f b' d t α' β').2 = b') →
      (∀ m ∈ moves, bget b m = none) →
      (∀ m ∈ moves, ∀ α' β',
        ∃ v, (f (b.set m (some XO.O)) (depth + 1) false α' β').1 = EInt.fin v ∧ C v) →
      (acc = EInt.negInf ∨ ∃ v, acc = EInt.fin v ∧ C v) →
      (∃ v, (maxLoop f depth b moves α β acc).1 = EInt.fin v ∧ C v) ∨
        (moves = [] ∧ (maxLoop f depth b moves α β acc).1 = acc) := by
  intro moves
  induction moves with
  | nil => intro b α β acc _ _ _ _; exact Or.inr ⟨rfl, rfl⟩
  | cons m rest ih =>
    intro b α β acc hf hmoves hchild hacc
    have hm : bget b m = none := hmoves m (List.mem_cons_self m rest)
    simp only [maxLoop]
    rcases hfb : f (b.set m (some XO.O)) (depth + 1) false α β with ⟨ev, b2⟩
    obtain ⟨v, hv, hCv⟩ := hchild m (List.mem_cons_self m rest) α β
    rw [hfb] at hv
    simp only at hv
    subst hv
    have hb2 : b2 = b.set m (some XO.O) := by
      have := hf (b.set m (some XO.O)) (depth + 1) false α β
      rw [hfb] at this
      exact this
    have hb3 : b2.set m (none : Cell) = b := by rw [hb2, set_set_cancel _ hm]
    have hm1 : ∃ w, EInt.emax acc (EInt.fin v) = EInt.fin w ∧ C w := by
      rcases hacc with rfl | ⟨w, rfl, hCw⟩
      · exact ⟨v, emax_negInf _, hCv⟩
      · rcases emax_cases (EInt.fin w) (EInt.fin v) with h | h
        · exact ⟨w, by rw [h], hCw⟩
        · exact ⟨v, by rw [h], hCv⟩
    split
    · exact Or.inl hm1
    · rw [hb3]
      rcases ih b _ _ _ hf (fun m' hm' => hmoves m' (List.mem_cons_of_mem m hm'))
        (fun m' hm' => hchild m' (List.mem_cons_of_mem m hm')) (Or.inr hm1) with h | ⟨_, h⟩
      · exact Or.inl h
      · rw [h]
        exact Or.inl hm1

theorem minLoop_fin (C : Int → Prop) {f : Board → Nat → Bool → EInt → EInt → EInt × Board}
    (depth : Nat) :
    ∀ (moves : List Nat) (b : Board) (α β acc : EInt),
      (∀ b' d t α' β', (f b' d t α' β').2 = b') →
      (∀ m ∈ moves, bget b m = none) →
      (∀ m ∈ moves, ∀ α' β',
        ∃ v, (f (b.set m (some XO.X)) (depth + 1) true α' β').1 = EInt.fin v ∧ C v) →
      (acc = EInt.posInf ∨ ∃ v, acc = EInt.fin v ∧ C v) →
      (∃ v, (minLoop f depth b moves α β acc).1 = EInt.fin v ∧ C v) ∨
        (moves = [] ∧ (minLoop f depth b moves α β acc).1 = acc) := by
  intro moves
  induction moves with
  | nil => intro b α β acc _ _ _ _; exact Or.inr ⟨rfl, rfl⟩
  | cons m rest ih =>
    intro b α β acc hf hmoves hchild hacc
    have hm : bget b m = none := hmoves m (List.mem_cons_self m rest)
    simp only [minLoop]
    rcases hfb : f (b.set m (some XO.X)) (depth + 1) true α β with ⟨ev, b2⟩
    obtain ⟨v, hv, hCv⟩ := hchild m (List.mem_cons_self m rest) α β
    rw [hfb] at hv
    simp only at hv
    subst hv
    have hb2 : b2 = b.set m (some XO.X) := by
      have := hf (b.set m (some XO.X)) (depth + 1) true α β
      rw [hfb] at this
      exact this
    have hb3 : b2.set m (none : Cell) = b := by rw [hb2, set_set_cancel _ hm]
    have hm1 : ∃ w, EInt.emin acc (EInt.fin v) = EInt.fin w ∧ C w := by
      rcases hacc with rfl | ⟨w, rfl, hCw⟩
      · exact ⟨v, emin_posInf _, hCv⟩
      · rcases emin_cases (EInt.fin w) (EInt.fin v) with h | h
        · exact ⟨w, by rw [h], hCw⟩
        · exact ⟨v, by rw [h], hCv⟩
    split
    · exact Or.inl hm1
    · rw [hb3]
      rcases ih b _ _ _ hf (fun m' hm' => hmoves m' (List.mem_cons_of_mem m hm'))
        (fun m' hm' => hchild m' (List.mem_cons_of_mem m hm')) (Or.inr hm1) with h | ⟨_, h⟩
      · exact Or.inl h
      · rw [h]
        exact Or.inl hm1

theorem minimaxF_fin :
    ∀ (fuel : Nat) (b : Board) (depth : Nat) (t : Bool) (α β : EInt), b.length = 9 →
      ∃ v, (minimaxF fuel b depth t α β).1 = EInt.fin v ∧
        ((depth : Int) + (countNone b : Int) ≤ 19 → -10 ≤ v ∧ v ≤ 10) := by
  intro fuel
  induction fuel with
  | zero =>
    intro b depth t α β h9
    rcases hw : (checkWinner b).winner with p | _ | _
    · cases p
      · rw [minimaxF_win_X 0 depth t α β hw]
        exact ⟨(depth : Int) - 10, rfl, fun h => by omega⟩
      · rw [minimaxF_win_O 0 depth t α β hw]
        exact ⟨10 - (depth : Int), rfl, fun h => by omega⟩
    · rw [minimaxF_tie 0 depth t α β hw]
      exact ⟨0, rfl, fun _ => by omega⟩
    · rw [minimaxF_zero_undecided depth t α β hw]
      exact ⟨0, rfl, fun _ => by omega⟩
  | succ fuel ih =>
    intro b depth t α β h9
    rcases hw : (checkWinner b).winner with p | _ | _
    · cases p
      · rw [minimaxF_win_X (fuel + 1) depth t α β hw]
        exact ⟨(depth : Int) - 10, rfl, fun h => by omega⟩
      · rw [minimaxF_win_O (fuel + 1) depth t α β hw]
        exact ⟨10 - (depth : Int), rfl, fun h => by omega⟩
    · rw [minimaxF_tie (fuel + 1) depth t α β hw]
      exact ⟨0, rfl, fun _ => by omega⟩
    · rw [minimaxF_undecided fuel depth t α β hw]
      have hmoves : ∀ m ∈ getAvailableMoves b, bget b m = none :=
        fun m hm => (mem_getAvailableMoves.mp hm).2
      have hnonnil := checkWinner_undecided_avail hw
      have hchild : ∀ (p : XO), ∀ m ∈ getAvailableMoves b, ∀ t' α' β',
          ∃ v, (minimaxF fuel (b.set m (some p)) (depth + 1) t' α' β').1 = EInt.fin v ∧
            ((depth : Int) + (countNone b : Int) ≤ 19 → -10 ≤ v ∧ v ≤ 10) := by
        intro p m hm t' α' β'
        obtain ⟨hmlen, hmget⟩ := mem_getAvailableMoves.mp hm
        have hcn : countNone (b.set m (some p)) + 1 = countNone b :=
          countNone_set p hmlen hmget
        obtain ⟨v, hv, hbnd⟩ := ih (b.set m (some p)) (depth + 1) t' α' β'
          (by rw [List.length_set]; exact h9)
        exact ⟨v, hv, fun h => hbnd (by omega)⟩
      cases t
      · rw [if_neg (by simp)]
        rcases minLoop_fin _ depth (getAvailableMoves b) b α β _
            (fun b' d t' α' β' => minimaxF_snd fuel b' d t' α' β') hmoves
            (fun m hm => hchild XO.X m hm true) (Or.inl rfl) with h | ⟨hnil, _⟩
        · exact h
        · exact absurd hnil hnonnil
      · rw [if_pos rfl]
        rcases maxLoop_fin _ depth (getAvailableMoves b) b α β _
            (fun b' d t' α' β' => minimaxF_snd fuel b' d t' α' β') hmoves
            (fun m hm => hchild XO.O m hm false) (Or.inl rfl) with h | ⟨hnil, _⟩
        · exact h
        · exact absurd hnil hnonnil

/-! ### More `EInt` and fold algebra, toward alpha-beta exactness -/

theorem eblt_to_ble {a b : EInt} (h : EInt.blt a b = true) : EInt.ble a b = true := by
  rw [eblt_iff] at h
  rcases eble_total a b with h' | h'
  · exact h'
  · exact absurd h' h

theorem eblt_ble_trans {a b c : EInt} (h1 : EInt.blt a b = true) (h2 : EInt.ble b c = true) :
    EInt.blt a c = true := by
  rw [eblt_iff] at *
  intro hca
  exact h1 (eble_trans h2 hca)

theorem eble_blt_trans {a b c : EInt} (h1 : EInt.ble a b = true) (h2 : EInt.blt b c = true) :
    EInt.blt a c = true := by
  rw [eblt_iff] at *
  intro hca
  exact h2 (eble_trans hca h1)

theorem eble_posInf_eq {r : EInt} (h : EInt.ble EInt.posInf r = true) : r = EInt.posInf := by
  cases r <;> simp_all [EInt.ble]

theorem eble_negInf_eq {r : EInt} (h : EInt.ble r EInt.negInf = true) : r = EInt.negInf := by
  cases r <;> simp_all [EInt.ble]

theorem emax_eq_left {a b : EInt} (h : EInt.ble b a = true) : EInt.emax a b = a := by
  rcases hc : EInt.ble a b with _ | _
  · simp [EInt.emax, hc]
  · simp only [EInt.emax, hc, if_true]
    exact (eble_antisymm hc h).symm

theorem emax_eq_right {a b : EInt} (h : EInt.ble a b = true) : EInt.emax a b = b := by
  simp [EInt.emax, h]

theorem emax_negInf_right (a : EInt) : EInt.emax a EInt.negInf = a :=
  emax_eq_left (eble_negInf a)

theorem emin_eq_left {a b : EInt} (h : EInt.ble a b = true) : EInt.emin a b = a := by
  simp [EInt.emin, h]

theorem emin_eq_right {a b : EInt} (h : EInt.ble b a = true) : EInt.emin a b = b := by
  rcases hc : EInt.ble a b with _ | _
  · simp [EInt.emin, hc]
  · simp only [EInt.emin, hc, if_true]
    exact eble_antisymm hc h

theorem emin_posInf_right (a : EInt) : EInt.emin a EInt.posInf = a :=
  emin_eq_left (eble_posInf a)

theorem emax_assoc (a b c : EInt) :
    EInt.emax (EInt.emax a b) c = EInt.emax a (EInt.emax b c) := by
  apply eble_antisymm
  · rw [emax_eble, emax_eble]
    refine ⟨⟨eble_emax_left _ _, ?_⟩, ?_⟩
    · exact eble_trans (eble_emax_left b c) (eble_emax_right _ _)
    · exact eble_trans (eble_emax_right b c) (eble_emax_right _ _)
  · rw [emax_eble, emax_eble]
    refine ⟨?_, ⟨?_, eble_emax_right _ _⟩⟩
    · exact eble_trans (eble_emax_left a b) (eble_emax_left _ _)
    · exact eble_trans (eble_emax_right a b) (eble_emax_left _ _)

theorem emin_assoc (a b c : EInt) :
    EInt.emin (EInt.emin a b) c = EInt.emin a (EInt.emin b c) := by
  apply eble_antisymm
  · rw [eble_emin, eble_emin]
    refine ⟨?_, ⟨?_, eble_emin_right _ _⟩⟩
    · exact eble_trans (eble_emin_left _ _) (eble_emin_left a b)
    · exact eble_trans (eble_emin_left _ _) (eble_emin_right a b)
  · rw [eble_emin, eble_emin]
    refine ⟨⟨eble_emin_left _ _, ?_⟩, ?_⟩
    · exact eble_trans (eble_emin_right _ _) (eble_emin_left b c)
    · exact eble_trans (eble_emin_right _ _) (eble_emin_right b c)

theorem emax_mono_right {a b b' : EInt} (h : EInt.ble b b' = true) :
    EInt.ble (EInt.emax a b) (EInt.emax a b') = true := by
  rw [emax_eble]
  exact ⟨eble_emax_left _ _, eble_trans h (eble_emax_right _ _)⟩

theorem emin_mono_right {a b b' : EInt} (h : EInt.ble b b' = true) :
    EInt.ble (EInt.emin a b) (EInt.emin a b') = true := by
  rw [eble_emin]
  exact ⟨eble_emin_left _ _, eble_trans (eble_emin_right _ _) h⟩

theorem foldMax_le_acc (g : Nat → EInt) :
    ∀ (l : List Nat) (acc : EInt), EInt.ble acc (foldMax g l acc) = true := by
  intro l
  induction l with
  | nil => intro acc; exact eble_refl acc
  | cons m rest ih =>
    intro acc
    exact eble_trans (eble_emax_left acc (g m)) (ih (EInt.emax acc (g m)))

theorem foldMax_le_mem (g : Nat → EInt) :
    ∀ (l : List Nat) (acc : EInt) (m : Nat), m ∈ l →
      EInt.ble (g m) (foldMax g l acc) = true := by
  intro l
  induction l with
  | nil => intro acc m hm; simp at hm
  | cons m' rest ih =>
    intro acc m hm
    rcases List.mem_cons.mp hm with rfl | hm
    · exact eble_trans (eble_emax_right acc (g m)) (foldMax_le_acc g rest _)
    · exact ih _ m hm

theorem foldMax_ub (g : Nat → EInt) :
    ∀ (l : List Nat) (acc c : EInt),
      EInt.ble (foldMax g l acc) c = true ↔
        (EInt.ble acc c = true ∧ ∀ m ∈ l, EInt.ble (g m) c = true) := by
  intro l
  induction l with
  | nil => intro acc c; simp [foldMax]
  | cons m rest ih =>
    intro acc c
    simp only [foldMax, ih, emax_eble, List.mem_cons]
    constructor
    · rintro ⟨⟨h1, h2⟩, h3⟩
      exact ⟨h1, fun m' hm' => by rcases hm' with rfl | hm' <;> [exact h2; exact h3 m' hm']⟩
    · rintro ⟨h1, h2⟩
      exact ⟨⟨h1, h2 m (Or.inl rfl)⟩, fun m' hm' => h2 m' (Or.inr hm')⟩

theorem foldMax_mono_acc (g : Nat → EInt) :
    ∀ (l : List Nat) (a a' : EInt), EInt.ble a a' = true →
      EInt.ble (foldMax g l a) (foldMax g l a') = true := by
  intro l
  induction l with
  | nil => intro a a' h; exact h
  | cons m rest ih =>
    intro a a' h
    refine ih _ _ ?_
    rw [emax_eble]
    exact ⟨eble_trans h (eble_emax_left _ _), eble_emax_right _ _⟩

theorem foldMin_ge_acc (g : Nat → EInt) :
    ∀ (l : List Nat) (acc : EInt), EInt.ble (foldMin g l acc) acc = true := by
  intro l
  induction l with
  | nil => intro acc; exact eble_refl acc
  | cons m rest ih =>
    intro acc
    exact eble_trans (ih (EInt.emin acc (g m))) (eble_emin_left acc (g m))

theorem foldMin_ge_mem (g : Nat → EInt) :
    ∀ (l : List Nat) (acc : EInt) (m : Nat), m ∈ l →
      EInt.ble (foldMin g l acc) (g m) = true := by
  intro l
  induction l with
  | nil => intro acc m hm; simp at hm
  | cons m' rest ih =>
    intro acc m hm
    rcases List.mem_cons.mp hm with rfl | hm
    · exact eble_trans (foldMin_ge_acc g rest _) (eble_emin_right acc (g m))
    · exact ih _ m hm

theorem foldMin_lb (g : Nat → EInt) :
    ∀ (l : List Nat) (acc c : EInt),
      EInt.ble c (foldMin g l acc) = true ↔
        (EInt.ble c acc = true ∧ ∀ m ∈ l, EInt.ble c (g m) = true) := by
  intro l
  induction l with
  | nil => intro acc c; simp [foldMin]
  | cons m rest ih =>
    intro acc c
    simp only [foldMin, ih, eble_emin, List.mem_cons]
    constructor
    · rintro ⟨⟨h1, h2⟩, h3⟩
      exact ⟨h1, fun m' hm' => by rcases hm' with rfl | hm' <;> [exact h2; exact h3 m' hm']⟩
    · rintro ⟨h1, h2⟩
      exact ⟨⟨h1, h2 m (Or.inl rfl)⟩, fun m' hm' => h2 m' (Or.inr hm')⟩

theorem foldMin_mono_acc (g : Nat → EInt) :
    ∀ (l : List Nat) (a a' : EInt), EInt.ble a a' = true →
      EInt.ble (foldMin g l a) (foldMin g l a') = true := by
  intro l
  induction l with
  | nil => intro a a' h; exact h
  | cons m rest ih =>
    intro a a' h
    refine ih _ _ ?_
    rw [eble_emin]
    exact ⟨eble_trans (eble_emin_left _ _) h, eble_emin_right _ _⟩

/-! ### Alpha-beta exactness: the pruned search agrees with the plain value -/

theorem mvalF_win_O {b : Board} (fuel depth : Nat) (t : Bool)
    (hw : (checkWinner b).winner = Winner.mark XO.O) :
    mvalF fuel b depth t = EInt.fin (10 - (depth : Int)) := by
  cases fuel <;> simp only [mvalF] <;> split <;> simp_all

theorem mvalF_win_X {b : Board} (fuel depth : Nat) (t : Bool)
    (hw : (checkWinner b).winner = Winner.mark XO.X) :
    mvalF fuel b depth t = EInt.fin ((depth : Int) - 10) := by
  cases fuel <;> simp only [mvalF] <;> split <;> simp_all

theorem mvalF_tie {b : Board} (fuel depth : Nat) (t : Bool)
    (hw : (checkWinner b).winner = Winner.tie) :
    mvalF fuel b depth t = EInt.fin 0 := by
  cases fuel <;> simp only [mvalF] <;> split <;> simp_all

theorem mvalF_zero_undecided {b : Board} (depth : Nat) (t : Bool)
    (hw : (checkWinner b).winner = Winner.undecided) :
    mvalF 0 b depth t = EInt.fin 0 := by
  simp only [mvalF] <;> split <;> simp_all

theorem mvalF_undecided {b : Board} (fuel depth : Nat) (t : Bool)
    (hw : (checkWinner b).winner = Winner.undecided) :
    mvalF (fuel + 1) b depth t =
      if t then
        foldMax (fun m => mvalF fuel (b.set m (some XO.O)) (depth + 1) false)
          (getAvailableMoves b) EInt.negInf
      else
        foldMin (fun m => mvalF fuel (b.set m (some XO.X)) (depth + 1) true)
          (getAvailableMoves b) EInt.posInf := by
  simp only [mvalF] <;> split <;> simp_all

theorem blt_of_ble_false {x y : EInt} (h : EInt.ble x y = false) : EInt.blt y x = true := by
  simp [EInt.blt, h]

theorem not_ble_of_blt {x y : EInt} (h : EInt.blt x y = true) : ¬ EInt.ble y x = true := by
  rw [eblt_iff] at h
  exact h

theorem maxLoop_ab {f : Board → Nat → Bool → EInt → EInt → EInt × Board}
    (depth : Nat) (w : Nat → EInt) (α β : EInt) :
    ∀ (moves : List Nat) (b : Board) (acc a : EInt),
      (∀ b' d t α' β', (f b' d t α' β').2 = b') →
      (∀ m ∈ moves, bget b m = none) →
      a = EInt.emax α acc →
      EInt.blt a β = true →
      (∀ m ∈ moves, ∀ a' β', EInt.blt a' β' = true →
        (EInt.ble (w m) a' = true →
          EInt.ble ((f (b.set m (some XO.O)) (depth + 1) false a' β').1) a' = true ∧
          EInt.ble (w m) ((f (b.set m (some XO.O)) (depth + 1) false a' β').1) = true) ∧
        (EInt.ble β' (w m) = true →
          EInt.ble β' ((f (b.set m (some XO.O)) (depth + 1) false a' β').1) = true ∧
          EInt.ble ((f (b.set m (some XO.O)) (depth + 1) false a' β').1) (w m) = true) ∧
        (EInt.blt a' (w m) = true → EInt.blt (w m) β' = true →
          (f (b.set m (some XO.O)) (depth + 1) false a' β').1 = w m)) →
      (EInt.ble (foldMax w moves acc) α = true →
        EInt.ble ((maxLoop f depth b moves a β acc).1) α = true ∧
        EInt.ble (foldMax w moves acc) ((maxLoop f depth b moves a β acc).1) = true) ∧
      (EInt.ble β (foldMax w moves acc) = true →
        EInt.ble β ((maxLoop f depth b moves a β acc).1) = true ∧
        EInt.ble ((maxLoop f depth b moves a β acc).1) (foldMax w moves acc) = true) ∧
      (EInt.blt α (foldMax w moves acc) = true →
        EInt.blt (foldMax w moves acc) β = true →
        (maxLoop f depth b moves a β acc).1 = foldMax w moves acc) := by
  intro moves
  induction moves with
  | nil =>
    intro b acc a _ _ _ _ _
    exact ⟨fun h => ⟨h, eble_refl _⟩, fun h => ⟨h, eble_refl _⟩, fun _ _ => rfl⟩
  | cons m rest ih =>
    intro b acc a hf hmoves ha hwin hchild
    have hm : bget b m = none := hmoves m (List.mem_cons_self m rest)
    have hαβ : EInt.blt α β = true :=
      eble_blt_trans (ha ▸ eble_emax_left α acc) hwin
    have haccW : EInt.ble acc (foldMax w (m :: rest) acc) = true := by
      show EInt.ble acc (foldMax w rest (EInt.emax acc (w m))) = true
      exact eble_trans (eble_emax_left _ _) (foldMax_le_acc w rest _)
    have hwmW : EInt.ble (w m) (foldMax w (m :: rest) acc) = true := by
      show EInt.ble (w m) (foldMax w rest (EInt.emax acc (w m))) = true
      exact eble_trans (eble_emax_right _ _) (foldMax_le_acc w rest _)
    have hrestW : ∀ m' ∈ rest,
        EInt.ble (w m') (foldMax w (m :: rest) acc) = true := by
      intro m' hm'
      show EInt.ble (w m') (foldMax w rest (EInt.emax acc (w m))) = true
      exact foldMax_le_mem w rest _ m' hm'
    obtain ⟨Clo, Chi, Cex⟩ := hchild m (List.mem_cons_self m rest) a β hwin
    simp only [maxLoop]
    rcases hfb : f (b.set m (some XO.O)) (depth + 1) false a β with ⟨ρ, b2⟩
    rw [hfb] at Clo Chi Cex
    simp only at Clo Chi Cex
    have hb2 : b2 = b.set m (some XO.O) := by
      have := hf (b.set m (some XO.O)) (depth + 1) false a β
      rw [hfb] at this
      exact this
    have hb3 : b2.set m (none : Cell) = b := by rw [hb2, set_set_cancel _ hm]
    rcases hwm1 : EInt.ble (w m) a with _ | _
    · -- `a < w m`
      have hawm : EInt.blt a (w m) = true := blt_of_ble_false hwm1
      rcases hwm2 : EInt.ble β (w m) with _ | _
      · -- `a < w m < β`: exact child
        have hwmβ : EInt.blt (w m) β = true := blt_of_ble_false hwm2
        have hρ : ρ = w m := Cex hawm hwmβ
        have hprune : EInt.ble β (EInt.emax a ρ) ≠ true := by
          intro hcon
          rcases eble_emax.mp hcon with h | h
          · exact not_ble_of_blt hwin h
          · rw [hρ] at h
            exact not_ble_of_blt hwmβ h
        rw [if_neg (by simpa using hprune)]
        rw [hb3]
        have ha' : EInt.emax a ρ = EInt.emax α (EInt.emax acc ρ) := by
          rw [ha, emax_assoc]
        have hwin' : EInt.blt (EInt.emax a ρ) β = true := by
          rw [eblt_iff]
          exact hprune
        have hfold : foldMax w (m :: rest) acc = foldMax w rest (EInt.emax acc ρ) := by
          rw [hρ]
          rfl
        rw [hfold]
        exact ih b (EInt.emax acc ρ) (EInt.emax a ρ) hf
          (fun m' hm' => hmoves m' (List.mem_cons_of_mem m hm')) ha' hwin'
          (fun m' hm' => hchild m' (List.mem_cons_of_mem m hm'))
      · -- `β ≤ w m`: fail-high child, prune
        obtain ⟨hβρ, hρwm⟩ := Chi hwm2
        have hprune : EInt.ble β (EInt.emax a ρ) = true :=
          eble_trans hβρ (eble_emax_right a ρ)
        rw [if_pos (by simpa using hprune)]
        simp only
        refine ⟨?_, ?_, ?_⟩
        · intro hWα
          exact absurd (eble_trans hwm2 (eble_trans hwmW hWα)) (not_ble_of_blt hαβ)
        · intro _
          constructor
          · exact eble_trans hβρ (eble_emax_right acc ρ)
          · rw [emax_eble]
            exact ⟨haccW, eble_trans hρwm hwmW⟩
        · intro _ hWβ
          exact absurd (eble_trans hwm2 hwmW) (not_ble_of_blt hWβ)
    · -- `w m ≤ a`: fail-low child
      obtain ⟨hρa, hwmρ⟩ := Clo hwm1
      have hα₁ : EInt.emax a ρ = a := emax_eq_left hρa
      rw [hα₁, if_neg (not_ble_of_blt hwin)]
      rw [hb3]
      have haccacc₁ : EInt.ble acc (EInt.emax acc ρ) = true := eble_emax_left acc ρ
      have hacc₁a : EInt.ble (EInt.emax acc ρ) a = true := by
        rw [emax_eble]
        exact ⟨ha ▸ eble_emax_right α acc, hρa⟩
      have ha' : a = EInt.emax α (EInt.emax acc ρ) := by
        rw [← emax_assoc, ← ha, hα₁]
      have ihr := ih b (EInt.emax acc ρ) a hf
        (fun m' hm' => hmoves m' (List.mem_cons_of_mem m hm')) ha' hwin
        (fun m' hm' => hchild m' (List.mem_cons_of_mem m hm'))
      -- relate the two folds
      have hWW' : EInt.ble (foldMax w (m :: rest) acc)
          (foldMax w rest (EInt.emax acc ρ)) = true := by
        show EInt.ble (foldMax w rest (EInt.emax acc (w m))) _ = true
        exact foldMax_mono_acc w rest _ _ (emax_mono_right hwmρ)
      have hW'aW : EInt.ble (foldMax w rest (EInt.emax acc ρ))
          (EInt.emax a (foldMax w (m :: rest) acc)) = true := by
        rw [foldMax_ub]
        constructor
        · exact eble_trans hacc₁a (eble_emax_left _ _)
        · intro m' hm'
          exact eble_trans (hrestW m' hm') (eble_emax_right _ _)
      refine ⟨?_, ?_, ?_⟩
      · intro hWα
        have haα : EInt.ble acc α = true := eble_trans haccW hWα
        have haa : a = α := by rw [ha, emax_eq_left haα]
        have hW'α : EInt.ble (foldMax w rest (EInt.emax acc ρ)) α = true := by
          refine eble_trans hW'aW ?_
          rw [haa, emax_eble]
          exact ⟨eble_refl α, hWα⟩
        obtain ⟨h1, h2⟩ := ihr.1 hW'α
        exact ⟨h1, eble_trans hWW' h2⟩
      · intro hβW
        have hβW' : EInt.ble β (foldMax w rest (EInt.emax acc ρ)) = true :=
          eble_trans hβW hWW'
        obtain ⟨h1, h2⟩ := ihr.2.1 hβW'
        refine ⟨h1, ?_⟩
        have hr : EInt.ble ((maxLoop f depth b rest a β (EInt.emax acc ρ)).1)
            (EInt.emax a (foldMax w (m :: rest) acc)) = true :=
          eble_trans h2 hW'aW
        rcases eble_emax.mp hr with hcase | hcase
        · exact absurd hcase (not_ble_of_blt (eblt_ble_trans hwin h1))
        · exact hcase
      · intro hαW hWβ
        have haW : EInt.ble a (foldMax w (m :: rest) acc) = true := by
          rw [ha, emax_eble]
          exact ⟨eblt_to_ble hαW, haccW⟩
        have hW'W : EInt.ble (foldMax w rest (EInt.emax acc ρ))
            (foldMax w (m :: rest) acc) = true := by
          refine eble_trans hW'aW ?_
          rw [emax_eble]
          exact ⟨haW, eble_refl _⟩
        have hWeq : foldMax w rest (EInt.emax acc ρ) = foldMax w (m :: rest) acc :=
          eble_antisymm hW'W hWW'
        rw [← hWeq] at hαW hWβ
        rw [ihr.2.2 hαW hWβ, hWeq]

theorem minLoop_ab {f : Board → Nat → Bool → EInt → EInt → EInt × Board}
    (depth : Nat) (w : Nat → EInt) (α β : EInt) :
    ∀ (moves : List Nat) (b : Board) (acc bc : EInt),
      (∀ b' d t α' β', (f b' d t α' β').2 = b') →
      (∀ m ∈ moves, bget b m = none) →
      bc = EInt.emin β acc →
      EInt.blt α bc = true →
      (∀ m ∈ moves, ∀ α' b', EInt.blt α' b' = true →
        (EInt.ble (w m) α' = true →
          EInt.ble ((f (b.set m (some XO.X)) (depth + 1) true α' b').1) α' = true ∧
          EInt.ble (w m) ((f (b.set m (some XO.X)) (depth + 1) true α' b').1) = true) ∧
        (EInt.ble b' (w m) = true →
          EInt.ble b' ((f (b.set m (some XO.X)) (depth + 1) true α' b').1) = true ∧
          EInt.ble ((f (b.set m (some XO.X)) (depth + 1) true α' b').1) (w m) = true) ∧
        (EInt.blt α' (w m) = true → EInt.blt (w m) b' = true →
          (f (b.set m (some XO.X)) (depth + 1) true α' b').1 = w m)) →
      (EInt.ble (foldMin w moves acc) α = true →
        EInt.ble ((minLoop f depth b moves α bc acc).1) α = true ∧
        EInt.ble (foldMin w moves acc) ((minLoop f depth b moves α bc acc).1) = true) ∧
      (EInt.ble β (foldMin w moves acc) = true →
        EInt.ble β ((minLoop f depth b moves α bc acc).1) = true ∧
        EInt.ble ((minLoop f depth b moves α bc acc).1) (foldMin w moves acc) = true) ∧
      (EInt.blt α (foldMin w moves acc) = true →
        EInt.blt (foldMin w moves acc) β = true →
        (minLoop f depth b moves α bc acc).1 = foldMin w moves acc) := by
  intro moves
  induction moves with
  | nil =>
    intro b acc bc _ _ _ _ _
    exact ⟨fun h => ⟨h, eble_refl _⟩, fun h => ⟨h, eble_refl _⟩, fun _ _ => rfl⟩
  | cons m rest ih =>
    intro b acc bc hf hmoves hb hwin hchild
    have hm : bget b m = none := hmoves m (List.mem_cons_self m rest)
    have hαβ : EInt.blt α β = true :=
      eblt_ble_trans hwin (hb ▸ eble_emin_left β acc)
    have haccW : EInt.ble (foldMin w (m :: rest) acc) acc = true := by
      show EInt.ble (foldMin w rest (EInt.emin acc (w m))) acc = true
      exact eble_trans (foldMin_ge_acc w rest _) (eble_emin_left _ _)
    have hwmW : EInt.ble (foldMin w (m :: rest) acc) (w m) = true := by
      show EInt.ble (foldMin w rest (EInt.emin acc (w m))) (w m) = true
      exact eble_trans (foldMin_ge_acc w rest _) (eble_emin_right _ _)
    have hrestW : ∀ m' ∈ rest,
        EInt.ble (foldMin w (m :: rest) acc) (w m') = true := by
      intro m' hm'
      show EInt.ble (foldMin w rest (EInt.emin acc (w m))) (w m') = true
      exact foldMin_ge_mem w rest _ m' hm'
    obtain ⟨Clo, Chi, Cex⟩ := hchild m (List.mem_cons_self m rest) α bc hwin
    simp only [minLoop]
    rcases hfb : f (b.set m (some XO.X)) (depth + 1) true α bc with ⟨ρ, b2⟩
    rw [hfb] at Clo Chi Cex
    simp only at Clo Chi Cex
    have hb2 : b2 = b.set m (some XO.X) := by
      have := hf (b.set m (some XO.X)) (depth + 1) true α bc
      rw [hfb] at this
      exact this
    have hb3 : b2.set m (none : Cell) = b := by rw [hb2, set_set_cancel _ hm]
    rcases hwm1 : EInt.ble bc (w m) with _ | _
    · -- `w m < bc`
      have hwmbc : EInt.blt (w m) bc = true := blt_of_ble_false hwm1
      rcases hwm2 : EInt.ble (w m) α with _ | _
      · -- `α < w m < bc`: exact child
        have hαwm : EInt.blt α (w m) = true := blt_of_ble_false hwm2
        have hρ : ρ = w m := Cex hαwm hwmbc
        have hprune : EInt.ble (EInt.emin bc ρ) α ≠ true := by
          intro hcon
          rcases emin_eble.mp hcon with h | h
          · exact not_ble_of_blt hwin h
          · rw [hρ] at h
            exact not_ble_of_blt hαwm h
        rw [if_neg (by simpa using hprune)]
        rw [hb3]
        have hb' : EInt.emin bc ρ = EInt.emin β (EInt.emin acc ρ) := by
          rw [hb, emin_assoc]
        have hwin' : EInt.blt α (EInt.emin bc ρ) = true := by
          rw [eblt_iff]
          exact hprune
        have hfold : foldMin w (m :: rest) acc = foldMin w rest (EInt.emin acc ρ) := by
          rw [hρ]
          rfl
        rw [hfold]
        exact ih b (EInt.emin acc ρ) (EInt.emin bc ρ) hf
          (fun m' hm' => hmoves m' (List.mem_cons_of_mem m hm')) hb' hwin'
          (fun m' hm' => hchild m' (List.mem_cons_of_mem m hm'))
      · -- `w m ≤ α`: fail-low child, prune
        obtain ⟨hρα, hwmρ⟩ := Clo hwm2
        have hprune : EInt.ble (EInt.emin bc ρ) α = true :=
          eble_trans (eble_emin_right bc ρ) hρα
        rw [if_pos (by simpa using hprune)]
        simp only
        refine ⟨?_, ?_, ?_⟩
        · intro _
          constructor
          · exact eble_trans (eble_emin_right acc ρ) hρα
          · rw [eble_emin]
            exact ⟨haccW, eble_trans hwmW hwmρ⟩
        · intro hβW
          exact absurd (eble_trans hβW (eble_trans hwmW hwm2)) (not_ble_of_blt hαβ)
        · intro hαW _
          exact absurd (eble_trans hwmW hwm2) (not_ble_of_blt hαW)
    · -- `bc ≤ w m`: fail-high child
      obtain ⟨hbcρ, hρwm⟩ := Chi hwm1
      have hβ₁ : EInt.emin bc ρ = bc := emin_eq_left hbcρ
      rw [hβ₁, if_neg (not_ble_of_blt hwin)]
      rw [hb3]
      have haccacc₁ : EInt.ble (EInt.emin acc ρ) acc = true := eble_emin_left acc ρ
      have hbcacc₁ : EInt.ble bc (EInt.emin acc ρ) = true := by
        rw [eble_emin]
        exact ⟨hb ▸ eble_emin_right β acc, hbcρ⟩
      have hb' : bc = EInt.emin β (EInt.emin acc ρ) := by
        rw [← emin_assoc, ← hb, hβ₁]
      have ihr := ih b (EInt.emin acc ρ) bc hf
        (fun m' hm' => hmoves m' (List.mem_cons_of_mem m hm')) hb' hwin
        (fun m' hm' => hchild m' (List.mem_cons_of_mem m hm'))
      have hWW' : EInt.ble (foldMin w rest (EInt.emin acc ρ))
          (foldMin w (m :: rest) acc) = true := by
        show EInt.ble _ (foldMin w rest (EInt.emin acc (w m))) = true
        exact foldMin_mono_acc w rest _ _ (emin_mono_right hρwm)
      have hW'bW : EInt.ble (EInt.emin bc (foldMin w (m :: rest) acc))
          (foldMin w rest (EInt.emin acc ρ)) = true := by
        rw [foldMin_lb]
        constructor
        · exact eble_trans (eble_emin_left _ _) hbcacc₁
        · intro m' hm'
          exact eble_trans (eble_emin_right _ _) (hrestW m' hm')
      refine ⟨?_, ?_, ?_⟩
      · intro hWα
        have hW'α : EInt.ble (foldMin w rest (EInt.emin acc ρ)) α = true :=
          eble_trans hWW' hWα
        obtain ⟨h1, h2⟩ := ihr.1 hW'α
        refine ⟨h1, ?_⟩
        have hr : EInt.ble (EInt.emin bc (foldMin w (m :: rest) acc))
            ((minLoop f depth b rest α bc (EInt.emin acc ρ)).1) = true :=
          eble_trans hW'bW h2
        rcases emin_eble.mp hr with hcase | hcase
        · exact absurd hcase (not_ble_of_blt (eble_blt_trans h1
            (eblt_iff.mpr (not_ble_of_blt hwin))))
        · exact hcase
      · intro hβW
        have hβacc : EInt.ble β acc = true := eble_trans hβW haccW
        have hbb : bc = β := by rw [hb, emin_eq_left hβacc]
        have hβW' : EInt.ble β (foldMin w rest (EInt.emin acc ρ)) = true := by
          refine eble_trans ?_ hW'bW
          rw [hbb, eble_emin]
          exact ⟨eble_refl β, hβW⟩
        obtain ⟨h1, h2⟩ := ihr.2.1 hβW'
        exact ⟨h1, eble_trans h2 hWW'⟩
      · intro hαW hWβ
        have hWb : EInt.ble (foldMin w (m :: rest) acc) bc = true := by
          rw [hb, eble_emin]
          exact ⟨eblt_to_ble hWβ, haccW⟩
        have hWW'2 : EInt.ble (foldMin w (m :: rest) acc)
            (foldMin w rest (EInt.emin acc ρ)) = true := by
          refine eble_trans ?_ hW'bW
          rw [eble_emin]
          exact ⟨hWb, eble_refl _⟩
        have hWeq : foldMin w rest (EInt.emin acc ρ) = foldMin w (m :: rest) acc :=
          eble_antisymm hWW' hWW'2
        rw [← hWeq] at hαW hWβ
        rw [ihr.2.2 hαW hWβ, hWeq]

theorem minimaxF_ab :
    ∀ (fuel : Nat) (b : Board) (depth : Nat) (t : Bool) (α β : EInt),
      EInt.blt α β = true →
      (EInt.ble (mvalF fuel b depth t) α = true →
        EInt.ble ((minimaxF fuel b depth t α β).1) α = true ∧
        EInt.ble (mvalF fuel b depth t) ((minimaxF fuel b depth t α β).1) = true) ∧
      (EInt.ble β (mvalF fuel b depth t) = true →
        EInt.ble β ((minimaxF fuel b depth t α β).1) = true ∧
        EInt.ble ((minimaxF fuel b depth t α β).1) (mvalF fuel b depth t) = true) ∧
      (EInt.blt α (mvalF fuel b depth t) = true →
        EInt.blt (mvalF fuel b depth t) β = true →
        (minimaxF fuel b depth t α β).1 = mvalF fuel b depth t) := by
  intro fuel
  induction fuel with
  | zero =>
    intro b depth t α β hwin
    have heq : (minimaxF 0 b depth t α β).1 = mvalF 0 b depth t := by
      rcases hw : (checkWinner b).winner with p | _ | _
      · cases p
        · rw [minimaxF_win_X 0 depth t α β hw, mvalF_win_X 0 depth t hw]
        · rw [minimaxF_win_O 0 depth t α β hw, mvalF_win_O 0 depth t hw]
      · rw [minimaxF_tie 0 depth t α β hw, mvalF_tie 0 depth t hw]
      · rw [minimaxF_zero_undecided depth t α β hw, mvalF_zero_undecided depth t hw]
    rw [heq]
    exact ⟨fun h => ⟨h, eble_refl _⟩, fun h => ⟨h, eble_refl _⟩, fun _ _ => rfl⟩
  | succ fuel ih =>
    intro b depth t α β hwin
    rcases hw : (checkWinner b).winner with p | _ | _
    · cases p
      · rw [minimaxF_win_X (fuel + 1) depth t α β hw, mvalF_win_X (fuel + 1) depth t hw]
        exact ⟨fun h => ⟨h, eble_refl _⟩, fun h => ⟨h, eble_refl _⟩, fun _ _ => rfl⟩
      · rw [minimaxF_win_O (fuel + 1) depth t α β hw, mvalF_win_O (fuel + 1) depth t hw]
        exact ⟨fun h => ⟨h, eble_refl _⟩, fun h => ⟨h, eble_refl _⟩, fun _ _ => rfl⟩
    · rw [minimaxF_tie (fuel + 1) depth t α β hw, mvalF_tie (fuel + 1) depth t hw]
      exact ⟨fun h => ⟨h, eble_refl _⟩, fun h => ⟨h, eble_refl _⟩, fun _ _ => rfl⟩
    · rw [minimaxF_undecided fuel depth t α β hw, mvalF_undecided fuel depth t hw]
      have hmoves : ∀ m ∈ getAvailableMoves b, bget b m = none :=
        fun m hm => (mem_getAvailableMoves.mp hm).2
      cases t
      · rw [if_neg (by simp), if_neg (by simp)]
        exact minLoop_ab depth _ α β (getAvailableMoves b) b EInt.posInf β
          (fun b' d t' α' β' => minimaxF_snd fuel b' d t' α' β') hmoves
          (emin_posInf_right β).symm hwin
          (fun m _ α' β' hw' => ih (b.set m (some XO.X)) (depth + 1) true α' β' hw')
      · rw [if_pos rfl, if_pos rfl]
        exact maxLoop_ab depth _ α β (getAvailableMoves b) b EInt.negInf α
          (fun b' d t' α' β' => minimaxF_snd fuel b' d t' α' β') hmoves
          (emax_negInf_right α).symm hwin
          (fun m _ α' β' hw' => ih (b.set m (some XO.O)) (depth + 1) false α' β' hw')

theorem minimaxF_exact (fuel : Nat) (b : Board) (depth : Nat) (t : Bool) :
    (minimaxF fuel b depth t EInt.negInf EInt.posInf).1 = mvalF fuel b depth t := by
  have hwin : EInt.blt EInt.negInf EInt.posInf = true := rfl
  obtain ⟨Clo, Chi, Cex⟩ := minimaxF_ab fuel b depth t EInt.negInf EInt.posInf hwin
  rcases hv : mvalF fuel b depth t with _ | v | _
  · rw [hv] at Clo
    obtain ⟨h1, _⟩ := Clo (eble_refl _)
    exact eble_negInf_eq h1
  · rw [hv] at Cex
    exact Cex rfl rfl
  · rw [hv] at Chi
    obtain ⟨h1, _⟩ := Chi (eble_refl _)
    exact eble_posInf_eq h1

/-! ### The root loop returns the first maximizer -/

theorem bestLoop_spec :
    ∀ (moves : List Nat) (b : Board) (bm : Option Nat) (bv : EInt),
      (∀ m ∈ moves, bget b m = none) →
      moves.Pairwise (· < ·) →
      ((bestLoop b moves bm bv).1 = bm ∧
        (∀ m ∈ moves,
          EInt.ble ((minimax (b.set m (some XO.O)) 0 false EInt.negInf EInt.posInf).1) bv
            = true)) ∨
      (∃ m ∈ moves, (bestLoop b moves bm bv).1 = some m ∧
        EInt.blt bv ((minimax (b.set m (some XO.O)) 0 false EInt.negInf EInt.posInf).1)
          = true ∧
        (∀ m' ∈ moves,
          EInt.ble ((minimax (b.set m' (some XO.O)) 0 false EInt.negInf EInt.posInf).1)
            ((minimax (b.set m (some XO.O)) 0 false EInt.negInf EInt.posInf).1) = true) ∧
        (∀ m' ∈ moves, m' < m →
          EInt.blt ((minimax (b.set m' (some XO.O)) 0 false EInt.negInf EInt.posInf).1)
            ((minimax (b.set m (some XO.O)) 0 false EInt.negInf EInt.posInf).1) = true)) := by
  intro moves
  induction moves with
  | nil => intro b bm bv _ _; exact Or.inl ⟨rfl, by simp⟩
  | cons m rest ih =>
    intro b bm bv hmoves hsorted
    have hm : bget b m = none := hmoves m (List.mem_cons_self m rest)
    have hmrest : ∀ m' ∈ rest, m < m' := fun m' hm' => (List.pairwise_cons.mp hsorted).1 m' hm'
    have hsorted' : rest.Pairwise (· < ·) := (List.pairwise_cons.mp hsorted).2
    have hmoves' : ∀ m' ∈ rest, bget b m' = none :=
      fun m' hm' => hmoves m' (List.mem_cons_of_mem m hm')
    simp only [bestLoop]
    rcases hfb : minimax (b.set m (some XO.O)) 0 false EInt.negInf EInt.posInf with ⟨ρ, b2⟩
    have hρ : ρ = (minimax (b.set m (some XO.O)) 0 false EInt.negInf EInt.posInf).1 := by
      rw [hfb]
    have hb2 : b2 = b.set m (some XO.O) := by
      have := minimaxF_snd 9 (b.set m (some XO.O)) 0 false EInt.negInf EInt.posInf
      rw [show minimaxF 9 (b.set m (some XO.O)) 0 false EInt.negInf EInt.posInf =
        minimax (b.set m (some XO.O)) 0 false EInt.negInf EInt.posInf from rfl, hfb] at this
      exact this
    have hb3 : b2.set m (none : Cell) = b := by rw [hb2, set_set_cancel _ hm]
    split
    · -- strict improvement: incumbent becomes `m` with value `ρ`
      next hlt =>
      rw [hb3]
      rcases ih b (some m) ρ hmoves' hsorted' with ⟨hres, hall⟩ | ⟨m2, hm2, hres, hbv2, hall, hfirst⟩
      · refine Or.inr ⟨m, List.mem_cons_self m rest, hres, ?_, ?_, ?_⟩
        · rw [← hρ]; exact hlt
        · intro m' hm'
          rcases List.mem_cons.mp hm' with rfl | hm'
          · rw [← hρ]; exact eble_refl ρ
          · rw [← hρ]; exact hall m' hm'
        · intro m' hm' hlt'
          rcases List.mem_cons.mp hm' with rfl | hm'
          · omega
          · exact absurd hlt' (by have := hmrest m' hm'; omega)
      · refine Or.inr ⟨m2, List.mem_cons_of_mem m hm2, hres, ?_, ?_, ?_⟩
        · rw [← hρ] at *
          exact eblt_ble_trans hlt (eblt_to_ble hbv2)
        · intro m' hm'
          rcases List.mem_cons.mp hm' with rfl | hm'
          · rw [← hρ]; exact eblt_to_ble hbv2
          · exact hall m' hm'
        · intro m' hm' hlt'
          rcases List.mem_cons.mp hm' with rfl | hm'
          · rw [← hρ]; exact hbv2
          · exact hfirst m' hm' hlt'
    · -- no improvement: `ρ ≤ bv`
      next hnlt =>
      have hρbv : EInt.ble ρ bv = true := by
        rcases h : EInt.ble ρ bv with _ | _
        · exact absurd (blt_of_ble_false h) hnlt
        · rfl
      rw [hb3]
      rcases ih b bm bv hmoves' hsorted' with ⟨hres, hall⟩ | ⟨m2, hm2, hres, hbv2, hall, hfirst⟩
      · refine Or.inl ⟨hres, ?_⟩
        intro m' hm'
        rcases List.mem_cons.mp hm' with rfl | hm'
        · rw [← hρ]; exact hρbv
        · exact hall m' hm'
      · refine Or.inr ⟨m2, List.mem_cons_of_mem m hm2, hres, hbv2, ?_, ?_⟩
        · intro m' hm'
          rcases List.mem_cons.mp hm' with rfl | hm'
          · rw [← hρ]
            exact eble_trans hρbv (eblt_to_ble hbv2)
          · exact hall m' hm'
        · intro m' hm' hlt'
          rcases List.mem_cons.mp hm' with rfl | hm'
          · rw [← hρ]
            exact eble_blt_trans hρbv hbv2
          · exact hfirst m' hm' hlt'

/-! ### Correspondence between boards and their base-3 encodings -/

theorem cellCode_lt (c : Cell) : cellCode c < 3 := by
  rcases c with _ | p
  · simp [cellCode]
  · cases p <;> simp [cellCode, xoCode]

theorem cellCode_some (p : XO) : cellCode (some p) = xoCode p := rfl

theorem cellCode_eq_xoCode {c : Cell} {p : XO} : cellCode c = xoCode p ↔ c = some p := by
  rcases c with _ | q
  · cases p <;> simp [cellCode, xoCode]
  · cases q <;> cases p <;> simp [cellCode, xoCode]

theorem xoCode_ne_zero (p : XO) : xoCode p ≠ 0 := by
  cases p <;> simp [xoCode]

theorem bgetN_succ (n i : Nat) : bgetN n (i + 1) = bgetN (n / 3) i := by
  unfold bgetN
  rw [Nat.div_div_eq_div_mul, pow_succ]
  ring_nf

theorem encB_cons_div (c : Cell) (t : Board) : encB (c :: t) / 3 = encB t := by
  have := cellCode_lt c
  simp only [encB]
  omega

theorem bgetN_encB : ∀ (b : Board) (i : Nat), bgetN (encB b) i = cellCode (bget b i) := by
  intro b
  induction b with
  | nil =>
    intro i
    simp [encB, bgetN, bget, cellCode, Nat.zero_div]
  | cons c t ih =>
    intro i
    cases i with
    | zero =>
      have := cellCode_lt c
      simp only [bgetN, pow_zero, Nat.div_one, encB, bget_cons_zero]
      omega
    | succ i =>
      rw [bgetN_succ, encB_cons_div, ih i, bget_cons_succ]

theorem bgetN_mul_pow_le (n i : Nat) : bgetN n i * 3 ^ i ≤ n := by
  unfold bgetN
  calc n / 3 ^ i % 3 * 3 ^ i ≤ n / 3 ^ i * 3 ^ i := by
        exact Nat.mul_le_mul_right _ (Nat.mod_le _ _)
    _ ≤ n := Nat.div_mul_le_self n _

theorem setN_encB : ∀ (b : Board) (m : Nat) (p : XO), m < b.length →
    setN (encB b) m (xoCode p) = encB (b.set m (some p)) := by
  intro b
  induction b with
  | nil => intro m p hm; simp at hm
  | cons c t ih =>
    intro m p hm
    cases m with
    | zero =>
      have h1 := cellCode_lt c
      have h2 := xoCode_ne_zero p
      simp only [setN, bgetN, pow_zero, Nat.div_one, List.set, encB, cellCode_some]
      have hmod : (cellCode c + 3 * encB t) % 3 = cellCode c := by omega
      rw [hmod]
      omega
    | succ m =>
      have hm' : m < t.length := by simpa using hm
      have h1 := cellCode_lt c
      have hdig : bgetN (encB (c :: t)) (m + 1) = bgetN (encB t) m := by
        rw [bgetN_succ, encB_cons_div]
      have hle : bgetN (encB t) m * 3 ^ m ≤ encB t := bgetN_mul_pow_le _ m
      have hrec := ih m p hm'
      simp only [setN] at hrec ⊢
      rw [hdig]
      simp only [List.set, encB]
      rw [← hrec]
      have hpow : (3 : Nat) ^ (m + 1) = 3 * 3 ^ m := by rw [pow_succ]; ring
      rw [hpow]
      have e1 : bgetN (encB t) m * (3 * 3 ^ m) = 3 * (bgetN (encB t) m * 3 ^ m) := by ring
      have e2 : xoCode p * (3 * 3 ^ m) = 3 * (xoCode p * 3 ^ m) := by ring
      rw [e1, e2]
      omega

theorem cwAuxN_encB (b : Board) :
    ∀ ts : List (Nat × Nat × Nat),
      cwAuxN (encB b) ts =
        (match checkWinnerAux b ts with
          | none => 0
          | some (p, _) => xoCode p) := by
  intro ts
  induction ts with
  | nil => rfl
  | cons t rest ih =>
    simp only [cwAuxN, checkWinnerAux, bgetN_encB]
    rcases hc : bget b t.1 with _ | p
    · simp only [hc, cellCode]
      simpa using ih
    · simp only [hc, cellCode]
      rcases h1 : bget b t.2.1 with _ | q1
      · have : cellCode (bget b t.2.1) ≠ xoCode p := by
          rw [h1]; intro hcon; exact xoCode_ne_zero p hcon.symm
        rw [h1] at this
        cases p <;> simp_all [xoCode, cellCode, cwAuxN, checkWinnerAux] <;> omega
      · rcases h2 : bget b t.2.2 with _ | q2
        · cases p <;> cases q1 <;>
            simp_all [xoCode, cellCode, cwAuxN, checkWinnerAux] <;> omega
        · cases p <;> cases q1 <;> cases q2 <;>
            simp_all [xoCode, cellCode, cwAuxN, checkWinnerAux]

theorem availAuxN_spec : ∀ (b : Board) (k n : Nat),
    (∀ j, bgetN n (k + j) = cellCode (bget b j)) →
    availAuxN n b.length k = availAux b k := by
  intro b
  induction b with
  | nil => intro k n _; rfl
  | cons c t ih =>
    intro k n hdig
    have h0 : bgetN n k = cellCode c := by
      have := hdig 0
      simpa [bget_cons_zero] using this
    have hrec : availAuxN n t.length (k + 1) = availAux t (k + 1) := by
      refine ih (k + 1) n ?_
      intro j
      have := hdig (j + 1)
      rw [bget_cons_succ] at this
      calc bgetN n (k + 1 + j) = bgetN n (k + (j + 1)) := by ring_nf
        _ = cellCode (bget t j) := this
    show availAuxN n (t.length + 1) k = availAux (c :: t) k
    rcases hc : c with _ | p
    · subst hc
      simp only [availAuxN, availAux, h0, cellCode]
      simpa [hrec]
    · simp only [availAuxN, availAux, h0, hc, cellCode_some]
      cases p <;> simp [xoCode, hrec]

theorem availN_encB {b : Board} (h9 : b.length = 9) :
    availN (encB b) = getAvailableMoves b := by
  unfold availN getAvailableMoves
  rw [← h9]
  exact availAuxN_spec b 0 (encB b) (fun j => by simpa using bgetN_encB b j)

theorem cellCode_eq_zero {c : Cell} : cellCode c = 0 ↔ c = none := by
  rcases c with _ | p
  · simp [cellCode]
  · cases p <;> simp [cellCode, xoCode]

theorem mem_moveOrder {m : Nat} : m ∈ moveOrder ↔ m < 9 := by
  simp only [moveOrder, List.mem_cons, List.not_mem_nil, or_false]
  constructor
  · intro h
    rcases h with rfl | rfl | rfl | rfl | rfl | rfl | rfl | rfl | rfl <;> omega
  · intro h
    omega

theorem mem_availOrdN {b : Board} {m : Nat} (h9 : b.length = 9) :
    m ∈ availOrdN (encB b) ↔ m ∈ getAvailableMoves b := by
  unfold availOrdN
  rw [List.mem_filter, mem_getAvailableMoves, h9]
  simp only [bgetN_encB, beq_iff_eq, cellCode_eq_zero, mem_moveOrder]

theorem availOrdN_nil {b : Board} (h9 : b.length = 9) :
    availOrdN (encB b) = [] ↔ getAvailableMoves b = [] := by
  rw [List.eq_nil_iff_forall_not_mem, List.eq_nil_iff_forall_not_mem]
  constructor
  · intro h m hm
    exact h m ((mem_availOrdN h9).mpr hm)
  · intro h m hm
    exact h m ((mem_availOrdN h9).mp hm)

theorem mvalF_undecided_max {b : Board} (fuel depth : Nat)
    (hw : (checkWinner b).winner = Winner.undecided) :
    mvalF (fuel + 1) b depth true =
      foldMax (fun m => mvalF fuel (b.set m (some XO.O)) (depth + 1) false)
        (getAvailableMoves b) EInt.negInf := by
  rw [mvalF_undecided fuel depth true hw]
  simp

theorem mvalF_undecided_min {b : Board} (fuel depth : Nat)
    (hw : (checkWinner b).winner = Winner.undecided) :
    mvalF (fuel + 1) b depth false =
      foldMin (fun m => mvalF fuel (b.set m (some XO.X)) (depth + 1) true)
        (getAvailableMoves b) EInt.posInf := by
  rw [mvalF_undecided fuel depth false hw]
  simp

/-! ### Sign of the minimax value versus game-theoretic safety -/

theorem foldMax_lb_iff (g : Nat → EInt) :
    ∀ (l : List Nat) (acc c : EInt),
      EInt.ble c (foldMax g l acc) = true ↔
        (EInt.ble c acc = true ∨ ∃ m ∈ l, EInt.ble c (g m) = true) := by
  intro l
  induction l with
  | nil => intro acc c; simp [foldMax]
  | cons m rest ih =>
    intro acc c
    simp only [foldMax, ih, eble_emax, List.mem_cons]
    constructor
    · rintro ((h | h) | ⟨m', hm', h⟩)
      · exact Or.inl h
      · exact Or.inr ⟨m, Or.inl rfl, h⟩
      · exact Or.inr ⟨m', Or.inr hm', h⟩
    · rintro (h | ⟨m', hm' | hm', h⟩)
      · exact Or.inl (Or.inl h)
      · subst hm'
        exact Or.inl (Or.inr h)
      · exact Or.inr ⟨m', hm', h⟩

theorem gSafeN_mark_X {n : Nat} (fuel : Nat) (xT : Bool)
    (h : cwAuxN n winningCombinations = 1) : gSafeN fuel n xT = false := by
  cases fuel <;> (rw [gSafeN, h]; rfl)

theorem gSafeN_mark_O {n : Nat} (fuel : Nat) (xT : Bool)
    (h : cwAuxN n winningCombinations = 2) : gSafeN fuel n xT = true := by
  cases fuel <;> (rw [gSafeN, h]; rfl)

theorem gSafeN_tie {n : Nat} (fuel : Nat) (xT : Bool)
    (h : cwAuxN n winningCombinations = 0) (he : availOrdN n = []) :
    gSafeN fuel n xT = true := by
  cases fuel <;> (rw [gSafeN, h, he]; rfl)

theorem gSafeN_step {n : Nat} (fuel : Nat) (xT : Bool)
    (h : cwAuxN n winningCombinations = 0) (hne : availOrdN n ≠ []) :
    gSafeN (fuel + 1) n xT =
      cond xT ((availOrdN n).all (fun m => gSafeN fuel (setN n m 1) false))
        ((availOrdN n).any (fun m => gSafeN fuel (setN n m 2) true)) := by
  have hie : (availOrdN n).isEmpty = false := by
    rcases hv : availOrdN n with _ | ⟨x, xs⟩
    · exact absurd hv hne
    · rfl
  rw [gSafeN, h]
  show (cond (availOrdN n).isEmpty true
      (cond xT ((availOrdN n).all fun m => gSafeN fuel (setN n m 1) false)
        ((availOrdN n).any fun m => gSafeN fuel (setN n m 2) true))) = _
  rw [hie]
  rfl

theorem checkWinner_eq_mark {b : Board} {p : XO} {line : Nat × Nat × Nat}
    (hca : checkWinnerAux b winningCombinations = some (p, line)) :
    checkWinner b = ⟨Winner.mark p, some line⟩ := by
  simp only [checkWinner, hca]

theorem checkWinner_eq_tie {b : Board}
    (hca : checkWinnerAux b winningCombinations = none)
    (hall : (b.all fun c => !c.isNone) = true) :
    checkWinner b = ⟨Winner.tie, none⟩ := by
  simp only [checkWinner, hca]
  split
  next => rfl
  next hcond => exact absurd hall hcond

theorem checkWinner_eq_undecided {b : Board}
    (hca : checkWinnerAux b winningCombinations = none)
    (hall : (b.all fun c => !c.isNone) = false) :
    checkWinner b = ⟨Winner.undecided, none⟩ := by
  simp only [checkWinner, hca]
  split
  next hcond => rw [hcond] at hall; cases hall
  next => rfl

theorem checkWinnerAux_of_winner_X {b : Board}
    (hw : (checkWinner b).winner = Winner.mark XO.X) :
    ∃ line, checkWinnerAux b winningCombinations = some (XO.X, line) := by
  rcases hca : checkWinnerAux b winningCombinations with _ | ⟨p, line⟩
  · rcases hall : (b.all fun c => !c.isNone) with _ | _
    · rw [checkWinner_eq_undecided hca hall] at hw
      cases hw
    · rw [checkWinner_eq_tie hca hall] at hw
      cases hw
  · rw [checkWinner_eq_mark hca] at hw
    simp only at hw
    cases hw
    exact ⟨line, rfl⟩

theorem gSafeN_iff_mval :
    ∀ (n : Nat) (b : Board) (xT : Bool) (d f1 f2 : Nat),
      b.length = 9 → countNone b = n → n ≤ f1 → n ≤ f2 → (d : Int) + (n : Int) ≤ 9 →
      (gSafeN f1 (encB b) xT = true ↔
        EInt.ble (EInt.fin 0) (mvalF f2 b d (!xT)) = true) := by
  intro n
  induction n with
  | zero =>
    intro b xT d f1 f2 h9 hcn _ _ hd
    rcases hca : checkWinnerAux b winningCombinations with _ | ⟨p, line⟩
    · -- no line; empty count 0 forces a tie
      have hall : (b.all fun c => !c.isNone) = true := all_isNone_iff.mpr hcn
      have hw : (checkWinner b).winner = Winner.tie := by
        rw [checkWinner_eq_tie hca hall]
      have hcw : cwAuxN (encB b) winningCombinations = 0 := by
        rw [cwAuxN_encB b, hca]
      have he : availOrdN (encB b) = [] :=
        (availOrdN_nil h9).mpr (getAvailableMoves_eq_nil.mpr hcn)
      rw [gSafeN_tie f1 xT hcw he, mvalF_tie f2 d (!xT) hw]
      simp [fin_eble_fin]
    · have hw : (checkWinner b).winner = Winner.mark p := by
        rw [checkWinner_eq_mark hca]
      have hcw : cwAuxN (encB b) winningCombinations = xoCode p := by
        rw [cwAuxN_encB b, hca]
      cases p
      · rw [gSafeN_mark_X f1 xT hcw, mvalF_win_X f2 d (!xT) hw]
        simp only [fin_eble_fin]
        constructor
        · intro hcon; cases hcon
        · intro hcon; omega
      · rw [gSafeN_mark_O f1 xT hcw, mvalF_win_O f2 d (!xT) hw]
        simp only [fin_eble_fin]
        constructor
        · intro _; omega
        · intro _; trivial
  | succ n ih =>
    intro b xT d f1 f2 h9 hcn h1 h2 hd
    rcases hca : checkWinnerAux b winningCombinations with _ | ⟨p, line⟩
    · rcases hall : (b.all fun c => !c.isNone) with _ | _
      · -- undecided: at least one move available
        have hw : (checkWinner b).winner = Winner.undecided := by
          rw [checkWinner_eq_undecided hca hall]
        have hcw : cwAuxN (encB b) winningCombinations = 0 := by
          rw [cwAuxN_encB b, hca]
        have hne : getAvailableMoves b ≠ [] := checkWinner_undecided_avail hw
        have hneN : availOrdN (encB b) ≠ [] := fun hcon => hne ((availOrdN_nil h9).mp hcon)
        cases f1 with
        | zero => omega
        | succ f1 =>
          cases f2 with
          | zero => omega
          | succ f2 =>
            have hchild : ∀ (p : XO) (xT' : Bool), ∀ m ∈ getAvailableMoves b,
                (gSafeN f1 (encB (b.set m (some p))) xT' = true ↔
                  EInt.ble (EInt.fin 0)
                    (mvalF f2 (b.set m (some p)) (d + 1) (!xT')) = true) := by
              intro p xT' m hm
              obtain ⟨hmlen, hmget⟩ := mem_getAvailableMoves.mp hm
              have hcn' : countNone (b.set m (some p)) + 1 = countNone b :=
                countNone_set p hmlen hmget
              exact ih (b.set m (some p)) xT' (d + 1) f1 f2
                (by rw [List.length_set]; exact h9) (by omega) (by omega) (by omega)
                (by push_cast; push_cast at hd; omega)
            cases xT
            · -- O to move: any safe O reply iff the max is nonnegative
              simp only [Bool.not_false]
              rw [gSafeN_step f1 false hcw hneN, mvalF_undecided_max f2 d hw]
              simp only [cond_false]
              rw [foldMax_lb_iff, List.any_eq_true]
              constructor
              · rintro ⟨m, hmo, hsafe⟩
                have hm : m ∈ getAvailableMoves b := (mem_availOrdN h9).mp hmo
                refine Or.inr ⟨m, hm, ?_⟩
                have hset : setN (encB b) m 2 = encB (b.set m (some XO.O)) := by
                  have := setN_encB b m XO.O (mem_getAvailableMoves.mp hm).1
                  simpa [xoCode] using this
                rw [hset] at hsafe
                simpa using (hchild XO.O true m hm).mp hsafe
              · rintro (hcon | ⟨m, hm, hle⟩)
                · simp [EInt.ble] at hcon
                · refine ⟨m, (mem_availOrdN h9).mpr hm, ?_⟩
                  have hset : setN (encB b) m 2 = encB (b.set m (some XO.O)) := by
                    have := setN_encB b m XO.O (mem_getAvailableMoves.mp hm).1
                    simpa [xoCode] using this
                  rw [hset]
                  exact (hchild XO.O true m hm).mpr (by simpa using hle)
            · -- X to move: all X replies safe iff the min is nonnegative
              simp only [Bool.not_true]
              rw [gSafeN_step f1 true hcw hneN, mvalF_undecided_min f2 d hw]
              simp only [cond_true]
              rw [foldMin_lb, List.all_eq_true]
              constructor
              · intro hall'
                refine ⟨eble_posInf _, fun m hm => ?_⟩
                have hsafe := hall' m ((mem_availOrdN h9).mpr hm)
                have hset : setN (encB b) m 1 = encB (b.set m (some XO.X)) := by
                  have := setN_encB b m XO.X (mem_getAvailableMoves.mp hm).1
                  simpa [xoCode] using this
                rw [hset] at hsafe
                simpa using (hchild XO.X false m hm).mp hsafe
              · rintro ⟨_, hmin⟩
                intro m hmo
                have hm : m ∈ getAvailableMoves b := (mem_availOrdN h9).mp hmo
                have hset : setN (encB b) m 1 = encB (b.set m (some XO.X)) := by
                  have := setN_encB b m XO.X (mem_getAvailableMoves.mp hm).1
                  simpa [xoCode] using this
                rw [hset]
                exact (hchild XO.X false m hm).mpr (by simpa using hmin m hm)
      · -- full board with no line: tie, but then no empty cell, contradiction
        have hcn0 := all_isNone_iff.mp hall
        omega
    · -- a line is complete
      have hw : (checkWinner b).winner = Winner.mark p := by
        rw [checkWinner_eq_mark hca]
      have hcw : cwAuxN (encB b) winningCombinations = xoCode p := by
        rw [cwAuxN_encB b, hca]
      cases p
      · rw [gSafeN_mark_X f1 xT hcw, mvalF_win_X f2 d (!xT) hw]
        simp only [fin_eble_fin]
        constructor
        · intro hcon; cases hcon
        · intro hcon; omega
      · rw [gSafeN_mark_O f1 xT hcw, mvalF_win_O f2 d (!xT) hw]
        simp only [fin_eble_fin]
        constructor
        · intro _; omega
        · intro _; trivial

/-! ### The automated opponent never loses at Hard difficulty -/

theorem checkWinnerAux_undecided {b : Board}
    (hw : (checkWinner b).winner = Winner.undecided) :
    checkWinnerAux b winningCombinations = none ∧
      (b.all fun c => !c.isNone) = false := by
  rcases hca : checkWinnerAux b winningCombinations with _ | ⟨p, line⟩
  · rcases hall : (b.all fun c => !c.isNone) with _ | _
    · exact ⟨rfl, rfl⟩
    · rw [checkWinner_eq_tie hca hall] at hw
      cases hw
  · rw [checkWinner_eq_mark hca] at hw
    cases hw

theorem bestMoveSearch_mem {b : Board} {m : Nat} (h : (bestMoveSearch b).1 = some m) :
    m ∈ getAvailableMoves b := by
  have hmoves : ∀ x ∈ getAvailableMoves b, bget b x = none :=
    fun x hx => (mem_getAvailableMoves.mp hx).2
  have hsorted : (getAvailableMoves b).Pairwise (· < ·) := availAux_sorted b 0
  have hu : (bestMoveSearch b).1 =
      (bestLoop b (getAvailableMoves b) (getAvailableMoves b).head? EInt.negInf).1 := rfl
  rcases bestLoop_spec (getAvailableMoves b) b (getAvailableMoves b).head? EInt.negInf
      hmoves hsorted with ⟨hres, _⟩ | ⟨m₂, hm₂, hres, _, _, _⟩
  · rw [hu, hres] at h
    rcases hl : getAvailableMoves b with _ | ⟨a, tl⟩
    · rw [hl] at h
      cases h
    · rw [hl] at h
      simp only [List.head?] at h
      cases h
      exact List.mem_cons_self _ _
  · rw [hu, hres] at h
    cases h
    exact hm₂

theorem getBestMove_hard (b : Board) (rand : Nat → ℚ) :
    getBestMove b Difficulty.hard rand = (bestMoveSearch b).1 := by
  simp [getBestMove]

set_option maxRecDepth 100000 in
theorem gSafeN_empty : gSafeN 9 0 true = true := by decide!

theorem reach_inv : ∀ {b : Board} {t : Bool}, Reach b t →
    b.length = 9 ∧ gSafeN (countNone b) (encB b) t = true := by
  intro b t h
  induction h with
  | init =>
    refine ⟨rfl, ?_⟩
    have h1 : countNone emptyBoard = 9 := rfl
    have h2 : encB emptyBoard = 0 := rfl
    rw [h1, h2]
    exact gSafeN_empty
  | @xmove b m hr hw hm ih =>
    obtain ⟨h9, hsafe⟩ := ih
    obtain ⟨hmlen, hmget⟩ := mem_getAvailableMoves.mp hm
    have hcn : countNone (b.set m (some XO.X)) + 1 = countNone b :=
      countNone_set _ hmlen hmget
    obtain ⟨hca, hall⟩ := checkWinnerAux_undecided hw
    have hcw : cwAuxN (encB b) winningCombinations = 0 := by rw [cwAuxN_encB b, hca]
    have hne : getAvailableMoves b ≠ [] := checkWinner_undecided_avail hw
    have hneN : availOrdN (encB b) ≠ [] := fun hcon => hne ((availOrdN_nil h9).mp hcon)
    rw [← hcn, gSafeN_step _ true hcw hneN] at hsafe
    simp only [cond_true, List.all_eq_true] at hsafe
    have hsm := hsafe m ((mem_availOrdN h9).mpr hm)
    have hset : setN (encB b) m 1 = encB (b.set m (some XO.X)) := by
      have := setN_encB b m XO.X hmlen
      simpa [xoCode] using this
    rw [hset] at hsm
    exact ⟨by rw [List.length_set]; exact h9, hsm⟩
  | @omove b m rand hr hw hbm ih =>
    obtain ⟨h9, hsafe⟩ := ih
    have hbm' : (bestMoveSearch b).1 = some m := by
      rw [← getBestMove_hard b rand]
      exact hbm
    have hm : m ∈ getAvailableMoves b := bestMoveSearch_mem hbm'
    obtain ⟨hmlen, hmget⟩ := mem_getAvailableMoves.mp hm
    have hcn : countNone (b.set m (some XO.O)) + 1 = countNone b :=
      countNone_set _ hmlen hmget
    obtain ⟨hca, hall⟩ := checkWinnerAux_undecided hw
    have hcw : cwAuxN (encB b) winningCombinations = 0 := by rw [cwAuxN_encB b, hca]
    have hne : getAvailableMoves b ≠ [] := checkWinner_undecided_avail hw
    have hneN : availOrdN (encB b) ≠ [] := fun hcon => hne ((availOrdN_nil h9).mp hcon)
    have hcnle : countNone b ≤ 9 := h9 ▸ countNone_le_length b
    rw [← hcn, gSafeN_step _ false hcw hneN] at hsafe
    simp only [cond_false, List.any_eq_true] at hsafe
    obtain ⟨m₀, hm₀o, hsafe₀⟩ := hsafe
    have hm₀ : m₀ ∈ getAvailableMoves b := (mem_availOrdN h9).mp hm₀o
    obtain ⟨hm₀len, hm₀get⟩ := mem_getAvailableMoves.mp hm₀
    have hcn₀ : countNone (b.set m₀ (some XO.O)) + 1 = countNone b :=
      countNone_set _ hm₀len hm₀get
    have hset₀ : setN (encB b) m₀ 2 = encB (b.set m₀ (some XO.O)) := by
      have := setN_encB b m₀ XO.O hm₀len
      simpa [xoCode] using this
    rw [hset₀] at hsafe₀
    have h9₀ : (b.set m₀ (some XO.O)).length = 9 := by rw [List.length_set]; exact h9
    -- sign of the chosen candidate's value
    have hv₀ : EInt.ble (EInt.fin 0) (mvalF 9 (b.set m₀ (some XO.O)) 0 false) = true := by
      have hiff := gSafeN_iff_mval (countNone (b.set m (some XO.O)))
        (b.set m₀ (some XO.O)) true 0 (countNone (b.set m (some XO.O))) 9
        h9₀ (by omega) le_rfl (by omega) (by push_cast; omega)
      simpa using hiff.mp hsafe₀
    have hroot₀ : EInt.ble (EInt.fin 0)
        ((minimax (b.set m₀ (some XO.O)) 0 false EInt.negInf EInt.posInf).1) = true := by
      show EInt.ble (EInt.fin 0)
        ((minimaxF 9 (b.set m₀ (some XO.O)) 0 false EInt.negInf EInt.posInf).1) = true
      rw [minimaxF_exact]
      exact hv₀
    have hmoves : ∀ x ∈ getAvailableMoves b, bget b x = none :=
      fun x hx => (mem_getAvailableMoves.mp hx).2
    have hsorted : (getAvailableMoves b).Pairwise (· < ·) := availAux_sorted b 0
    have hu : (bestMoveSearch b).1 =
        (bestLoop b (getAvailableMoves b) (getAvailableMoves b).head? EInt.negInf).1 := rfl
    rcases bestLoop_spec (getAvailableMoves b) b (getAvailableMoves b).head? EInt.negInf
        hmoves hsorted with ⟨_, hallv⟩ | ⟨m₂, _, hres, _, hmax, _⟩
    · -- impossible: every root value would be `-Infinity`
      have hneg := eble_negInf_eq (hallv m₀ hm₀)
      rw [hneg] at hroot₀
      cases hroot₀
    · have hm2m : m₂ = m := by
        rw [hu, hres] at hbm'
        cases hbm'
        rfl
      subst hm2m
      have h1 := hmax m₀ hm₀
      have hrootm : EInt.ble (EInt.fin 0)
          ((minimax (b.set m₂ (some XO.O)) 0 false EInt.negInf EInt.posInf).1) = true :=
        eble_trans hroot₀ h1
      have hvm : EInt.ble (EInt.fin 0) (mvalF 9 (b.set m₂ (some XO.O)) 0 false) = true := by
        rw [show (minimax (b.set m₂ (some XO.O)) 0 false EInt.negInf EInt.posInf).1 =
          (minimaxF 9 (b.set m₂ (some XO.O)) 0 false EInt.negInf EInt.posInf).1 from rfl,
          minimaxF_exact] at hrootm
        exact hrootm
      have h9m : (b.set m₂ (some XO.O)).length = 9 := by rw [List.length_set]; exact h9
      have hiff := gSafeN_iff_mval (countNone (b.set m₂ (some XO.O)))
        (b.set m₂ (some XO.O)) true 0 (countNone (b.set m₂ (some XO.O))) 9
        h9m rfl le_rfl (by omega) (by push_cast; omega)
      exact ⟨h9m, hiff.mpr (by simpa using hvm)⟩

theorem reach_no_X_win {b : Board} {t : Bool} (h : Reach b t) :
    (checkWinner b).winner ≠ Winner.mark XO.X := by
  intro hw
  obtain ⟨h9, hsafe⟩ := reach_inv h
  obtain ⟨line, hca⟩ := checkWinnerAux_of_winner_X hw
  have hcw : cwAuxN (encB b) winningCombinations = 1 := by
    rw [cwAuxN_encB b, hca]
    rfl
  rw [gSafeN_mark_X (countNone b) t hcw] at hsafe
  cases hsafe

/-! ### The claims -/

/-- C1, as stated, is false: on the board `[X, X, Empty, O, O, Empty, Empty,
Empty, Empty]` with the automated opponent playing `O` at Hard difficulty,
`getBestMove` does not return cell index 2. -/
theorem C1_counterexample :
    ¬ (getBestMove
        [some XO.X, some XO.X, none, some XO.O, some XO.O, none, none, none, none]
        Difficulty.hard (fun _ => 0) = some 2) := by
  decide!

/-- C1 (amended): on the board `[X, X, Empty, O, O, Empty, Empty, Empty,
Empty]` with the automated opponent playing `O` at Hard difficulty,
`getBestMove` returns cell index 5 — completing its own row 3-4-5 for an
immediate win, which outscores blocking the opponent at index 2. -/
theorem C1_thm (rand : Nat → ℚ) :
    getBestMove
      [some XO.X, some XO.X, none, some XO.O, some XO.O, none, none, none, none]
      Difficulty.hard rand = some 5 := by
  rw [getBestMove_hard]
  decide!

/-- C2, as stated, is false: called on a board with no empty cells,
`getBestMove` does not fault; it silently returns `undefined` (the
out-of-bounds read `availableMoves[0]`, modelled as `none`). -/
theorem C2_counterexample :
    getBestMove
      [some XO.X, some XO.X, some XO.O, some XO.O, some XO.O, some XO.X,
       some XO.X, some XO.X, some XO.O]
      Difficulty.hard (fun _ => 0) = none := by
  decide!

/-- C2 (amended): when `getBestMove` is called with no available move, at any
difficulty and regardless of the random draws, it silently returns the
sentinel `undefined` (modelled `none`) rather than faulting. -/
theorem C2_thm (b : Board) (difficulty : Difficulty) (rand : Nat → ℚ)
    (h : getAvailableMoves b = []) : getBestMove b difficulty rand = none := by
  have hbs : (bestMoveSearch b).1 = none := by
    unfold bestMoveSearch
    rw [h]
    rfl
  cases difficulty <;> simp [getBestMove, h, hbs]

/-- Witness for C2: the amended statement applied to a concrete full board. -/
theorem C2_witness :
    getAvailableMoves
        [some XO.X, some XO.X, some XO.O, some XO.O, some XO.O, some XO.X,
         some XO.X, some XO.X, some XO.O] = [] ∧
      getBestMove
        [some XO.X, some XO.X, some XO.O, some XO.O, some XO.O, some XO.X,
         some XO.X, some XO.X, some XO.O]
        Difficulty.medium (fun _ => 0) = none :=
  ⟨by decide, C2_thm _ Difficulty.medium _ (by decide)⟩

/-- C3: for every board and every choice of fuel, depth, turn and bounds,
the search (`minimax`, and its fuel-indexed form `minimaxF`) and the move
selection (`bestMoveSearch`, the optimal-play path of `getBestMove`) return
the input board unchanged: every transient candidate placement is undone on
every return path, including the pruning ones. -/
theorem C3_thm :
    (∀ (fuel : Nat) (b : Board) (depth : Nat) (t : Bool) (α β : EInt),
        (minimaxF fuel b depth t α β).2 = b) ∧
    (∀ (b : Board) (depth : Nat) (t : Bool) (α β : EInt),
        (minimax b depth t α β).2 = b) ∧
    (∀ b : Board, (bestMoveSearch b).2 = b) :=
  ⟨fun fuel => minimaxF_snd fuel,
   fun b depth t α β => minimaxF_snd 9 b depth t α β,
   bestMoveSearch_snd⟩

/-- C4: at Hard difficulty `getBestMove` never consults the random oracle:
its result is a function of the board alone, so any two calls on the same
board — with arbitrary random draws — return the identical cell index. -/
theorem C4_thm (b : Board) (rand1 rand2 : Nat → ℚ) :
    getBestMove b Difficulty.hard rand1 = getBestMove b Difficulty.hard rand2 := by
  rw [getBestMove_hard, getBestMove_hard]

/-- C5: in any state reachable in the human-versus-computer game at Hard
difficulty — the human playing `X` arbitrarily, the automated opponent
answering with `getBestMove` — `X` is never the winner: the automated
opponent never loses. -/
theorem C5_thm (b : Board) (t : Bool) (h : Reach b t) :
    (checkWinner b).winner ≠ Winner.mark XO.X :=
  reach_no_X_win h

/-- Witness for C5: the theorem applied to the state after the opening move
`X` at cell 0. -/
theorem C5_witness :
    (checkWinner (emptyBoard.set 0 (some XO.X))).winner ≠ Winner.mark XO.X :=
  C5_thm _ false
    (Reach.xmove Reach.init (by decide) (by decide))

/-- `checkWinnerAux` is exactly the first-match scan of the line table:
the first triple (in table order) whose line is completely held by one
mark. -/
theorem checkWinnerAux_eq_findSome (b : Board) (ts : List (Nat × Nat × Nat)) :
    checkWinnerAux b ts = ts.findSome? (fun t => (lineMark b t).map (fun p => (p, t))) := by
  induction ts with
  | nil => rfl
  | cons t rest ih =>
    rw [List.findSome?_cons]
    rcases h0 : bget b t.1 with _ | p
    · have hl : lineMark b t = none := by simp [lineMark, h0]
      rw [hl]
      simpa [checkWinnerAux, h0] using ih
    · rcases h1 : bget b t.2.1 with _ | q
      · have hl : lineMark b t = none := by simp [lineMark, h0, h1]
        rw [hl]
        simpa [checkWinnerAux, h0, h1] using ih
      · rcases h2 : bget b t.2.2 with _ | r
        · have hl : lineMark b t = none := by simp [lineMark, h0, h1, h2]
          rw [hl]
          simpa [checkWinnerAux, h0, h1, h2] using ih
        · have hl : lineMark b t = if q = p ∧ r = p then some p else none := by
            simp [lineMark, h0, h1, h2]
          rw [hl]
          by_cases hqr : q = p ∧ r = p
          · obtain ⟨hq, hr⟩ := hqr
            subst hq
            subst hr
            simp [checkWinnerAux, h0, h1, h2]
          · have hcond : ¬ (bget b t.2.1 = some p ∧ bget b t.2.2 = some p) := by
              rw [h1, h2]
              simpa using hqr
            rw [if_neg hqr]
            simp only [checkWinnerAux, h0]
            rw [if_neg hcond]
            simpa using ih

/-- C6: for every 9-cell board, `checkWinner` agrees with the specified
evaluator: the first triple of the fixed 8-line table whose three cells hold
the same non-empty mark wins (mark and line are both reported); with no
matching line the result is `Tie` exactly when every cell is non-empty and
`InProgress` otherwise.  In particular lines are checked before fullness:
whenever some line is complete — even on a full board — the result is a win,
never `Tie` or `InProgress`. -/
theorem C6_thm (b : Board) (h9 : b.length = 9) :
    checkWinner b = checkWinnerSpec b ∧
    ((∃ t ∈ winningCombinations, lineMark b t ≠ none) →
      (checkWinner b).winner ≠ Winner.tie ∧ (checkWinner b).winner ≠ Winner.undecided) := by
  have hall : (fun c : Cell => !c.isNone) = (fun c : Cell => c.isSome) :=
    funext fun c => by cases c <;> rfl
  have heq : checkWinner b = checkWinnerSpec b := by
    unfold checkWinner checkWinnerSpec
    rw [checkWinnerAux_eq_findSome, hall]
  refine ⟨heq, ?_⟩
  rintro ⟨t, ht, hlm⟩
  have hfs : winningCombinations.findSome?
      (fun t => (lineMark b t).map (fun p => (p, t))) ≠ none := by
    intro hn
    rw [List.findSome?_eq_none] at hn
    have hnt := hn t ht
    rcases hm : lineMark b t with _ | p
    · exact hlm hm
    · rw [hm] at hnt
      simp at hnt
  rw [heq]
  unfold checkWinnerSpec
  rcases hw : winningCombinations.findSome?
      (fun t => (lineMark b t).map (fun p => (p, t))) with _ | ⟨p, t'⟩
  · exact absurd hw hfs
  · exact ⟨by simp, by simp⟩

/-- Witness for C6: a full board with a completed `X` line — the evaluator
matches the specified one and reports the win, not a tie. -/
theorem C6_witness :
    (([some XO.X, some XO.X, some XO.X, some XO.O, some XO.O, some XO.X,
       some XO.O, some XO.X, some XO.O] : Board).length = 9) ∧
    checkWinner
        [some XO.X, some XO.X, some XO.X, some XO.O, some XO.O, some XO.X,
         some XO.O, some XO.X, some XO.O] =
      checkWinnerSpec
        [some XO.X, some XO.X, some XO.X, some XO.O, some XO.O, some XO.X,
         some XO.O, some XO.X, some XO.O] ∧
    ((0, 1, 2) ∈ winningCombinations ∧
      lineMark
        [some XO.X, some XO.X, some XO.X, some XO.O, some XO.O, some XO.X,
         some XO.O, some XO.X, some XO.O] (0, 1, 2) ≠ none) ∧
    (checkWinner
        [some XO.X, some XO.X, some XO.X, some XO.O, some XO.O, some XO.X,
         some XO.O, some XO.X, some XO.O]).winner ≠ Winner.tie ∧
    (checkWinner
        [some XO.X, some XO.X, some XO.X, some XO.O, some XO.O, some XO.X,
         some XO.O, some XO.X, some XO.O]).winner ≠ Winner.undecided := by
  have h := C6_thm
    [some XO.X, some XO.X, some XO.X, some XO.O, some XO.O, some XO.X,
     some XO.O, some XO.X, some XO.O] (by decide)
  exact ⟨by decide, h.1, ⟨by decide, by decide⟩, h.2 ⟨(0, 1, 2), by decide, by decide⟩⟩

/-- C7: on any board the evaluator reports as terminal, the search at depth
`d` scores `10 - d` for an `O` (maximizing-side) win, `d - 10` for an `X`
(minimizing-side) win, and `0` for a tie — regardless of turn flag and
bounds; consequently, among wins for the same side, the shallower win scores
strictly higher in magnitude (strictly greater for `O`, strictly smaller,
i.e. more negative, for `X`). -/
theorem C7_thm (b : Board) (d d' : Nat) (t t' : Bool) (α β α' β' : EInt) :
    ((checkWinner b).winner = Winner.mark XO.O →
      (minimax b d t α β).1 = EInt.fin (10 - (d : Int))) ∧
    ((checkWinner b).winner = Winner.mark XO.X →
      (minimax b d t α β).1 = EInt.fin ((d : Int) - 10)) ∧
    ((checkWinner b).winner = Winner.tie →
      (minimax b d t α β).1 = EInt.fin 0) ∧
    ((checkWinner b).winner = Winner.mark XO.O → d < d' →
      EInt.blt ((minimax b d' t' α' β').1) ((minimax b d t α β).1) = true) ∧
    ((checkWinner b).winner = Winner.mark XO.X → d < d' →
      EInt.blt ((minimax b d t α β).1) ((minimax b d' t' α' β').1) = true) := by
  refine ⟨?_, ?_, ?_, ?_, ?_⟩
  · intro hw
    rw [minimax, minimaxF_win_O 9 d t α β hw]
  · intro hw
    rw [minimax, minimaxF_win_X 9 d t α β hw]
  · intro hw
    rw [minimax, minimaxF_tie 9 d t α β hw]
  · intro hw hdd
    rw [minimax, minimax, minimaxF_win_O 9 d t α β hw, minimaxF_win_O 9 d' t' α' β' hw]
    simp only [EInt.blt, EInt.ble]
    simp only [Bool.not_eq_true', decide_eq_false_iff_not, not_le]
    omega
  · intro hw hdd
    rw [minimax, minimax, minimaxF_win_X 9 d t α β hw, minimaxF_win_X 9 d' t' α' β' hw]
    simp only [EInt.blt, EInt.ble]
    simp only [Bool.not_eq_true', decide_eq_false_iff_not, not_le]
    omega

/-- Witness for C7: an `O`-won board scored at depths 3 and 5 — the depth-3
score is `10 - 3` and strictly exceeds the depth-5 score. -/
theorem C7_witness :
    ((checkWinner
        [some XO.O, some XO.O, some XO.O, some XO.X, some XO.X, none, none,
         none, none]).winner = Winner.mark XO.O ∧ (3 : Nat) < 5) ∧
    (minimax
        [some XO.O, some XO.O, some XO.O, some XO.X, some XO.X, none, none,
         none, none] 3 true EInt.negInf EInt.posInf).1 =
      EInt.fin (10 - ((3 : Nat) : Int)) ∧
    EInt.blt
      ((minimax
          [some XO.O, some XO.O, some XO.O, some XO.X, some XO.X, none, none,
           none, none] 5 false EInt.negInf EInt.posInf).1)
      ((minimax
          [some XO.O, some XO.O, some XO.O, some XO.X, some XO.X, none, none,
           none, none] 3 true EInt.negInf EInt.posInf).1) = true := by
  have h := C7_thm
    [some XO.O, some XO.O, some XO.O, some XO.X, some XO.X, none, none, none, none]
    3 5 true false EInt.negInf EInt.posInf EInt.negInf EInt.posInf
  exact ⟨⟨by decide, by decide⟩, h.1 (by decide), h.2.2.2.1 (by decide) (by decide)⟩

/-- C8: in the optimal-play path of `getBestMove`, the candidate root moves
(`getAvailableMoves`) are enumerated in strictly ascending cell-index order,
and whenever the root loop returns a move it is an available move whose root
score is maximal, with every lower-indexed available move scoring strictly
less — later candidates replace the incumbent only on a strict `>`
comparison, so the lowest-index maximizer wins all ties. -/
theorem C8_thm (b : Board) (h9 : b.length = 9) :
    (getAvailableMoves b).Pairwise (· < ·) ∧
    ∀ m : Nat, (bestMoveSearch b).1 = some m →
      m ∈ getAvailableMoves b ∧
      (∀ m' ∈ getAvailableMoves b,
        EInt.ble ((minimax (b.set m' (some XO.O)) 0 false EInt.negInf EInt.posInf).1)
          ((minimax (b.set m (some XO.O)) 0 false EInt.negInf EInt.posInf).1) = true) ∧
      (∀ m' ∈ getAvailableMoves b, m' < m →
        EInt.blt ((minimax (b.set m' (some XO.O)) 0 false EInt.negInf EInt.posInf).1)
          ((minimax (b.set m (some XO.O)) 0 false EInt.negInf EInt.posInf).1) = true) := by
  refine ⟨availAux_sorted b 0, fun m h => ?_⟩
  have hmoves : ∀ x ∈ getAvailableMoves b, bget b x = none :=
    fun x hx => (mem_getAvailableMoves.mp hx).2
  have hsorted : (getAvailableMoves b).Pairwise (· < ·) := availAux_sorted b 0
  have hu : (bestMoveSearch b).1 =
      (bestLoop b (getAvailableMoves b) (getAvailableMoves b).head? EInt.negInf).1 := rfl
  rcases bestLoop_spec (getAvailableMoves b) b (getAvailableMoves b).head? EInt.negInf
      hmoves hsorted with ⟨hres, hall⟩ | ⟨m₂, hm₂, hres, _, hmax, hfirst⟩
  · rw [hu, hres] at h
    rcases hl : getAvailableMoves b with _ | ⟨a, tl⟩
    · rw [hl] at h
      simp at h
    · have ha : a ∈ getAvailableMoves b := by
        rw [hl]
        exact List.mem_cons_self _ _
      have hble := hall a ha
      obtain ⟨v, hv, _⟩ := minimaxF_fin 9 (b.set a (some XO.O)) 0 false EInt.negInf
        EInt.posInf (by rw [List.length_set]; exact h9)
      rw [show minimax (b.set a (some XO.O)) 0 false EInt.negInf EInt.posInf
            = minimaxF 9 (b.set a (some XO.O)) 0 false EInt.negInf EInt.posInf from rfl,
        hv] at hble
      simp [EInt.ble] at hble
  · rw [hu, hres] at h
    injection h with h'
    subst h'
    exact ⟨hm₂, hmax, hfirst⟩

/-- Witness for C8: on the board `[X, X, Empty, O, O, Empty, Empty, Empty,
Empty]` the root loop returns move 5; move 2 is also available, scores no
higher, and — being lower-indexed — scores strictly less. -/
theorem C8_witness :
    (([some XO.X, some XO.X, none, some XO.O, some XO.O, none, none, none,
       none] : Board).length = 9 ∧
      (bestMoveSearch
        [some XO.X, some XO.X, none, some XO.O, some XO.O, none, none, none,
         none]).1 = some 5) ∧
    5 ∈ getAvailableMoves
        [some XO.X, some XO.X, none, some XO.O, some XO.O, none, none, none,
         none] ∧
    EInt.ble
      ((minimax
          (([some XO.X, some XO.X, none, some XO.O, some XO.O, none, none,
             none, none] : Board).set 2 (some XO.O)) 0 false EInt.negInf
          EInt.posInf).1)
      ((minimax
          (([some XO.X, some XO.X, none, some XO.O, some XO.O, none, none,
             none, none] : Board).set 5 (some XO.O)) 0 false EInt.negInf
          EInt.posInf).1) = true ∧
    EInt.blt
      ((minimax
          (([some XO.X, some XO.X, none, some XO.O, some XO.O, none, none,
             none, none] : Board).set 2 (some XO.O)) 0 false EInt.negInf
          EInt.posInf).1)
      ((minimax
          (([some XO.X, some XO.X, none, some XO.O, some XO.O, none, none,
             none, none] : Board).set 5 (some XO.O)) 0 false EInt.negInf
          EInt.posInf).1) = true := by
  have hbs : (bestMoveSearch
      ([some XO.X, some XO.X, none, some XO.O, some XO.O, none, none, none,
        none] : Board)).1 = some 5 := by decide!
  have h := (C8_thm
    [some XO.X, some XO.X, none, some XO.O, some XO.O, none, none, none, none]
    (by decide)).2 5 hbs
  exact ⟨⟨by decide, hbs⟩, h.1, h.2.1 2 (by decide), h.2.2 2 (by decide) (by decide)⟩

/-- C9, as stated, is false: the value of a terminal board is `10 - d` or
`d - 10` for the depth argument `d`, which the signature does not bound, so
at depth 30 an `O`-won board scores `-20`, outside `[-10, 10]`. -/
theorem C9_counterexample :
    (minimax
        [some XO.O, some XO.O, some XO.O, some XO.X, some XO.X, none, none,
         none, none] 30 true EInt.negInf EInt.posInf).1 = EInt.fin (-20) ∧
      ¬ (-10 ≤ (-20 : Int) ∧ (-20 : Int) ≤ 10) :=
  ⟨by decide, by decide⟩

/-- C9 (amended): on 9-cell boards the search terminates — any fuel of at
least the number of empty cells, in particular the 9 the program effectively
has, computes the same result — and always returns a finite value, never
`±∞`; and that value lies in `[-10, 10]` whenever the root depth is at most
10, which covers every call the program makes (`getBestMove` always roots at
depth 0). -/
theorem C9_thm (b : Board) (f1 f2 depth : Nat) (t : Bool) (α β : EInt)
    (h9 : b.length = 9) (hf1 : countNone b ≤ f1) (hf2 : countNone b ≤ f2) :
    minimaxF f1 b depth t α β = minimaxF f2 b depth t α β ∧
    ∃ v : Int, (minimax b depth t α β).1 = EInt.fin v ∧
      (depth ≤ 10 → -10 ≤ v ∧ v ≤ 10) := by
  constructor
  · exact minimaxF_fuel_irrel (countNone b) b f1 f2 depth t α β rfl hf1 hf2
  · obtain ⟨v, hv, hr⟩ := minimaxF_fin 9 b depth t α β h9
    refine ⟨v, hv, fun hd => hr ?_⟩
    have hcn : countNone b ≤ b.length := List.countP_le_length _
    rw [h9] at hcn
    omega

/-- Witness for C9: a concrete mid-game board with three empty cells —
fuel 3 and fuel 9 agree, and the depth-6 value is finite and in range. -/
theorem C9_witness :
    ((([some XO.X, some XO.X, some XO.O, some XO.O, some XO.O, some XO.X,
        none, none, none] : Board).length = 9 ∧
      countNone
        [some XO.X, some XO.X, some XO.O, some XO.O, some XO.O, some XO.X,
         none, none, none] ≤ 3 ∧
      countNone
        [some XO.X, some XO.X, some XO.O, some XO.O, some XO.O, some XO.X,
         none, none, none] ≤ 9)) ∧
    (minimaxF 3
        [some XO.X, some XO.X, some XO.O, some XO.O, some XO.O, some XO.X,
         none, none, none] 6 true EInt.negInf EInt.posInf =
      minimaxF 9
        [some XO.X, some XO.X, some XO.O, some XO.O, some XO.O, some XO.X,
         none, none, none] 6 true EInt.negInf EInt.posInf ∧
    ∃ v : Int,
      (minimax
          [some XO.X, some XO.X, some XO.O, some XO.O, some XO.O, some XO.X,
           none, none, none] 6 true EInt.negInf EInt.posInf).1 = EInt.fin v ∧
      (6 ≤ 10 → -10 ≤ v ∧ v ≤ 10)) :=
  ⟨⟨by decide, by decide, by decide⟩,
   C9_thm
    [some XO.X, some XO.X, some XO.O, some XO.O, some XO.O, some XO.X,
     none, none, none] 3 9 6 true EInt.negInf EInt.posInf
    (by decide) (by decide) (by decide)⟩

/-- C10: `makeMove` on an occupied cell, or after the game has ended, leaves
the entire game state — board, current player, winner, winning line, mode,
difficulty and scores — unchanged. -/
theorem C10_thm (gs : GameState) (index : Nat)
    (h : (bget gs.board index).isSome = true ∨ gs.winner ≠ Winner.undecided) :
    makeMove gs index = gs := by
  unfold makeMove
  rw [if_pos h]

/-- Witness for C10: a no-op `makeMove` on an occupied cell of a concrete
mid-game state, and on a finished game. -/
theorem C10_witness :
    ((bget [some XO.X, none, none, none, none, none, none, none, none] 0).isSome = true ∨
      Winner.undecided ≠ Winner.undecided) ∧
    makeMove
      ⟨[some XO.X, none, none, none, none, none, none, none, none], XO.O,
        Winner.undecided, none, GameMode.pvc, Difficulty.hard, ⟨0, 0, 0⟩⟩ 0 =
      ⟨[some XO.X, none, none, none, none, none, none, none, none], XO.O,
        Winner.undecided, none, GameMode.pvc, Difficulty.hard, ⟨0, 0, 0⟩⟩ :=
  ⟨Or.inl (by decide),
   C10_thm
    ⟨[some XO.X, none, none, none, none, none, none, none, none], XO.O,
      Winner.undecided, none, GameMode.pvc, Difficulty.hard, ⟨0, 0, 0⟩⟩ 0
    (Or.inl (by decide))⟩

end TTT
